import Mathlib

/-!
Verification of the `semantic` codebase-summarizer against its specification.

The Python sources are embedded shallowly: strings are `List Char` (one entry
per Python character), integers are `Nat`/`Int`, dictionaries are association
lists, fallible operations return `Option`/`Except`.  Each definition mirrors
one Python function, named after it.
-/

set_option maxHeartbeats 1000000

namespace Semantic

/-! ### Python string primitives

`str.strip()` removes leading and trailing characters from the Python
whitespace set " \t\n\r\x0b\x0c"; `str.split('\n')` splits on every newline,
keeping empty pieces; `str.startswith(p)` tests a literal prefix;
`str.rfind(c)` returns the highest index of `c` (the Python -1 sentinel is
modelled as `none`). -/

def pyIsSpace (c : Char) : Bool :=
  c = ' ' || c = '\t' || c = '\n' || c = '\r' || c = '\x0b' || c = '\x0c'

def pyStrip (l : List Char) : List Char :=
  ((l.dropWhile pyIsSpace).reverse.dropWhile pyIsSpace).reverse

def pySplitNl : List Char → List (List Char)
  | [] => [[]]
  | c :: rest =>
    let r := pySplitNl rest
    if c = '\n' then [] :: r
    else (c :: r.headD []) :: r.tail

def pyStartsWith (prefixChars l : List Char) : Bool :=
  prefixChars.isPrefixOf l

def pyRfind : List Char → Char → Option Nat
  | [], _ => none
  | a :: rest, c =>
    match pyRfind rest c with
    | some i => some (i + 1)
    | none => if a = c then some 0 else none

theorem pySplitNl_ne_nil (l : List Char) : pySplitNl l ≠ [] := by
  cases l with
  | nil => simp [pySplitNl]
  | cons c rest =>
    simp only [pySplitNl]
    split <;> simp

theorem pyRfind_eq_none {l : List Char} {c : Char} (h : ∀ a ∈ l, a ≠ c) :
    pyRfind l c = none := by
  induction l with
  | nil => rfl
  | cons a rest ih =>
    have ha : a ≠ c := h a (by simp)
    have : pyRfind rest c = none := ih fun x hx => h x (by simp [hx])
    simp [pyRfind, this, ha]

theorem pyRfind_lt_length {l : List Char} {c : Char} {i : Nat}
    (h : pyRfind l c = some i) : i < l.length := by
  induction l generalizing i with
  | nil => simp [pyRfind] at h
  | cons a rest ih =>
    simp only [pyRfind] at h
    cases hr : pyRfind rest c with
    | some j =>
      rw [hr] at h
      cases h
      exact Nat.succ_lt_succ (ih hr)
    | none =>
      rw [hr] at h
      by_cases hac : a = c
      · rw [if_pos hac] at h
        injection h with h
        simp only [List.length_cons]
        omega
      · simp [hac] at h

/-! ### `_filter_metadata_lines` and `_content_matches`
(src/src/codebase_summarizer/main.py, lines 199-229)

The two metadata prefixes are '- last_generated_utc:' and '- commit_hash:'.
`_content_matches` strips the whole content, splits it into lines, drops the
metadata lines and compares the remaining stripped lines. -/

def lastGeneratedPrefix : List Char := "- last_generated_utc:".data

def commitHashPrefix : List Char := "- commit_hash:".data

def filterMetadataLines : List (List Char) → List (List Char)
  | [] => []
  | line :: rest =>
    let line := pyStrip line
    if pyStartsWith lastGeneratedPrefix line || pyStartsWith commitHashPrefix line then
      filterMetadataLines rest
    else
      line :: filterMetadataLines rest

def contentMatches (actual expected : List Char) : Bool :=
  filterMetadataLines (pySplitNl (pyStrip actual)) =
    filterMetadataLines (pySplitNl (pyStrip expected))

/-- The processing described by the claim's words, literally: split the raw
content into lines, drop every line that after stripping starts with a
metadata prefix, and strip the surviving lines.  (No outer strip of the whole
content: the claim does not mention one.) -/
def claimProcessed (content : List Char) : List (List Char) :=
  ((pySplitNl content).filter fun l =>
      !(pyStartsWith lastGeneratedPrefix (pyStrip l) ||
        pyStartsWith commitHashPrefix (pyStrip l))).map pyStrip

/-- The same processing, but applied to the whole-content-stripped text, as
`_content_matches` actually does. -/
def strippedProcessed (content : List Char) : List (List Char) :=
  claimProcessed (pyStrip content)

theorem filterMetadataLines_eq (lines : List (List Char)) :
    filterMetadataLines lines =
      (lines.filter fun l =>
        !(pyStartsWith lastGeneratedPrefix (pyStrip l) ||
          pyStartsWith commitHashPrefix (pyStrip l))).map pyStrip := by
  induction lines with
  | nil => rfl
  | cons l rest ih =>
    simp only [filterMetadataLines, List.filter_cons]
    by_cases h : (pyStartsWith lastGeneratedPrefix (pyStrip l) ||
        pyStartsWith commitHashPrefix (pyStrip l)) = true
    · simp [h, ih]
    · simp only [Bool.not_eq_true] at h
      simp [h, ih]

theorem contentMatches_iff (a b : List Char) :
    contentMatches a b = true ↔ strippedProcessed a = strippedProcessed b := by
  unfold contentMatches strippedProcessed claimProcessed
  rw [decide_eq_true_iff, filterMetadataLines_eq, filterMetadataLines_eq]

/-- C8: refuted as stated.  The two contents below are equal after dropping
metadata lines and stripping the remaining lines (both reduce to the lines
["", "foo"]), yet `_content_matches` returns `False`, because it first strips
the whole content: the leading blank line of the second content is eaten by
that outer strip while the first content keeps its interior blank line. -/
theorem C8_content_matches_counterexample :
    claimProcessed "- commit_hash: x\n\nfoo".data =
      claimProcessed "\n- commit_hash: x\nfoo".data ∧
    contentMatches "- commit_hash: x\n\nfoo".data "\n- commit_hash: x\nfoo".data = false := by
  constructor
  · decide
  · decide

/-- C8 (amended): `_content_matches(A, B)` is true exactly when A and B are
equal after stripping surrounding whitespace from the whole content, splitting
into lines, dropping every line that (after stripping) starts with
'- last_generated_utc:' or '- commit_hash:', and stripping the remaining
lines.  In particular two contents differing only in the text of their
timestamp and commit-hash lines compare as matching. -/
theorem C8_content_matches_amended (a b : List Char) :
    contentMatches a b = true ↔ strippedProcessed a = strippedProcessed b :=
  contentMatches_iff a b

/-! ### LLM usage metrics (src/src/services/llm_usage_metrics.py)

Python floats are modelled as rationals; this is exact for claim C9, whose
relevant code paths either return the literal 0.0 or add 0.0 to a running
total, with no other floating-point arithmetic involved. -/

inductive LLMProvider where
  | openai
  | anthropic
deriving DecidableEq

/-- `LLMUsageCollector.COST_PER_1K_TOKENS`: per-provider maps from model name
to (input, output) cost per 1000 tokens. -/
def COST_PER_1K_TOKENS : List (LLMProvider × List (String × ℚ × ℚ)) :=
  [(.openai,
     [("gpt-4", (3/100, 6/100)),
      ("gpt-4-turbo", (1/100, 3/100)),
      ("gpt-3.5-turbo", (1/1000, 2/1000))]),
   (.anthropic,
     [("claude-3-opus", (15/1000, 75/1000)),
      ("claude-3-sonnet", (3/1000, 15/1000)),
      ("claude-3-haiku", (25/100000, 125/100000))])]

/-- `LLMUsageCollector.estimate_cost`: unknown provider or unknown model for
the provider returns 0.0; otherwise cost is per-1K-token prices times the
token counts. -/
def estimate_cost (provider : LLMProvider) (model : String)
    (inputTokens outputTokens : Nat) : ℚ :=
  match COST_PER_1K_TOKENS.lookup provider with
  | none => 0
  | some providerCosts =>
    match providerCosts.lookup model with
    | none => 0
    | some (inCost, outCost) =>
      (inputTokens : ℚ) / 1000 * inCost + (outputTokens : ℚ) / 1000 * outCost

/-- The mutable counters of `LLMUsageCollector` (`__init__`). -/
structure CollectorState where
  totalCost : ℚ
  totalCalls : Nat
  totalInputTokens : Nat
  totalOutputTokens : Nat
deriving DecidableEq

def CollectorState.init : CollectorState :=
  { totalCost := 0, totalCalls := 0, totalInputTokens := 0, totalOutputTokens := 0 }

/-- One recorded LLM call, as passed to `log_usage`. -/
structure UsageCall where
  provider : LLMProvider
  model : String
  inputTokens : Nat
  outputTokens : Nat

/-- `LLMUsageCollector.log_usage`: updates the running totals with one call. -/
def log_usage (st : CollectorState) (call : UsageCall) : CollectorState :=
  { totalCost := st.totalCost +
      estimate_cost call.provider call.model call.inputTokens call.outputTokens,
    totalCalls := st.totalCalls + 1,
    totalInputTokens := st.totalInputTokens + call.inputTokens,
    totalOutputTokens := st.totalOutputTokens + call.outputTokens }

/-- `get_session_summary()['total_estimated_cost']` after a session consisting
of the given calls. -/
def sessionTotalEstimatedCost (calls : List UsageCall) : ℚ :=
  (calls.foldl log_usage CollectorState.init).totalCost

/-- The model name hard-coded in every request the bundled client makes
(`LLMClient.summarize`, `summarize_async`, and the `model` default of
`_make_llm_request` / `_make_llm_request_async` in
src/src/services/llm_client.py). -/
def llmClientRequestModel : String := "gpt-5-nano"

/-- C9: a (provider, model) pair absent from the cost table is estimated at
exactly 0; "gpt-5-nano" is absent from the OpenAI cost table, so each call the
bundled client logs has estimated cost 0 and the session total is 0. -/
theorem C9_missing_model_costs_zero :
    (∀ (p : LLMProvider) (m : String) (i o : Nat),
      (match COST_PER_1K_TOKENS.lookup p with
       | none => True
       | some providerCosts => providerCosts.lookup m = none) →
      estimate_cost p m i o = 0) ∧
    (((COST_PER_1K_TOKENS.lookup LLMProvider.openai).getD []).lookup
      llmClientRequestModel = none) ∧
    (∀ i o : Nat, estimate_cost .openai llmClientRequestModel i o = 0) ∧
    (∀ calls : List UsageCall,
      (∀ c ∈ calls, c.provider = .openai ∧ c.model = llmClientRequestModel) →
      sessionTotalEstimatedCost calls = 0) := by
  have hnano : ∀ i o : Nat, estimate_cost .openai llmClientRequestModel i o = 0 := by
    intro i o
    rfl
  refine ⟨?_, by rfl, hnano, ?_⟩
  · intro p m i o h
    unfold estimate_cost
    cases hp : COST_PER_1K_TOKENS.lookup p with
    | none => rfl
    | some providerCosts =>
      rw [hp] at h
      simp only [h]
  · intro calls
    suffices hgen : ∀ st : CollectorState,
        (∀ c ∈ calls, c.provider = .openai ∧ c.model = llmClientRequestModel) →
        (calls.foldl log_usage st).totalCost = st.totalCost by
      intro h
      simpa [sessionTotalEstimatedCost, CollectorState.init] using
        hgen CollectorState.init h
    induction calls with
    | nil => intro st _; rfl
    | cons c rest ih =>
      intro st h
      obtain ⟨hp, hm⟩ := h c (by simp)
      have hrest : ∀ c' ∈ rest, c'.provider = .openai ∧ c'.model = llmClientRequestModel :=
        fun c' hc' => h c' (by simp [hc'])
      rw [List.foldl_cons, ih _ hrest]
      simp [log_usage, hp, hm, hnano]

theorem C9_missing_model_costs_zero_witness :
    estimate_cost .openai llmClientRequestModel 1234 567 = 0 ∧
    sessionTotalEstimatedCost [⟨.openai, llmClientRequestModel, 1234, 567⟩] = 0 :=
  ⟨C9_missing_model_costs_zero.2.2.1 1234 567,
   C9_missing_model_costs_zero.2.2.2 _ (by
     intro c hc
     rw [List.mem_singleton] at hc
     subst hc
     exact ⟨rfl, rfl⟩)⟩

/-! ### `_process_single_directory` (src/src/codebase_summarizer/main.py,
lines 248-324)

The directory's file-system state is modelled by the content of its
`.semantic` file (`none` when the file does not exist).  The LLM response is
an oracle parameter (`Except` for the `try/except` around the call).  The
function returns the new file state, the `True`/`False` success value, and the
number of LLM calls it performed. -/

def processSingleDirectory (force : Bool) (semanticFile : Option (List Char))
    (llmResult : Except String (List Char)) :
    Option (List Char) × Bool × Nat :=
  if semanticFile.isSome && !force then
    (semanticFile, false, 0)
  else
    match llmResult with
    | .ok content => (some content, true, 1)
    | .error _ => (semanticFile, false, 1)

/-- C5: when the `.semantic` file already exists and `--force` is off, the
processing step returns immediately: the file's content is unchanged, the
directory counts as not processed, and no LLM call is made. -/
theorem C5_existing_semantic_skipped (content : List Char)
    (llmResult : Except String (List Char)) :
    processSingleDirectory false (some content) llmResult = (some content, false, 0) := by
  rfl

/-! ### Model-alias resolution (claim C4)

Modelled from the spec: the repository has no `AVAILABLE_MODELS` table or
alias-resolution code under src/ (only tests/test_provider_inference.py
exercises them, importing `_infer_provider_from_model` from
codebase_summarizer.main and `AVAILABLE_MODELS` from
services.llm_usage_metrics, neither of which exists there).  The models,
aliases and the Google provider below are taken from the spec's description
("selected by a provider/model argument with alias resolution", "Model-alias
resolution is a pure function ... an unknown model/provider pair fails with a
distinguishable error") and the expectations in the test file. -/

inductive ResolutionProvider where
  | openai
  | anthropic
  | google
deriving DecidableEq

/-- Modelled from the spec: per-provider canonical model names and aliases as
exercised by tests/test_provider_inference.py. -/
def AVAILABLE_MODELS (p : ResolutionProvider) : List String × List (String × String) :=
  match p with
  | .openai =>
    (["gpt-4", "gpt-4-turbo", "gpt-4o", "gpt-4o-mini", "gpt-3.5-turbo",
      "gpt-5", "gpt-5-mini", "gpt-5-nano"], [])
  | .anthropic =>
    (["claude-sonnet-4-20250514", "claude-opus-4-1-20250805"],
     [("sonnet", "claude-sonnet-4-20250514"), ("opus", "claude-opus-4-1-20250805")])
  | .google =>
    (["gemini-2.5-pro", "gemini-2.5-flash"], [])

/-- Modelled from the spec: resolving a model name for a provider maps an
alias to its canonical model, accepts a canonical model as itself, and fails
with `none` otherwise. -/
def resolveModelAlias (p : ResolutionProvider) (name : String) : Option String :=
  let (models, aliases) := AVAILABLE_MODELS p
  match aliases.lookup name with
  | some canonical => some canonical
  | none => if models.contains name then some name else none

/-- C4: alias resolution is a pure, deterministic function — resolving the
same (provider, alias) twice yields the same canonical model — an unknown
name resolves to `none`, distinguishable from every successful `some`
resolution, and a known alias resolves to its canonical model. -/
theorem assoc_lookup_eq_none {β : Type} (l : List (String × β)) (k : String)
    (h : ∀ e ∈ l, e.1 ≠ k) : List.lookup k l = none := by
  induction l with
  | nil => rfl
  | cons e rest ih =>
    obtain ⟨ek, ev⟩ := e
    have hek : ek ≠ k := h (ek, ev) (by simp)
    have hb : (k == ek) = false := beq_eq_false_iff_ne.mpr fun he => hek he.symm
    rw [List.lookup, hb]
    exact ih fun e he => h e (by simp [he])

/-- C4: alias resolution is a pure, deterministic function — resolving the
same (provider, name) twice yields the same result — every name that is
neither one of the provider's canonical models nor one of its aliases
resolves to `none`, distinguishable from every successful `some` resolution,
and a known alias resolves to its canonical model. -/
theorem C4_alias_resolution_deterministic :
    (∀ (p : ResolutionProvider) (a : String),
      resolveModelAlias p a = resolveModelAlias p a) ∧
    (∀ (p : ResolutionProvider) (name : String),
      name ∉ (AVAILABLE_MODELS p).1 →
      (∀ al ∈ (AVAILABLE_MODELS p).2, al.1 ≠ name) →
      resolveModelAlias p name = none) ∧
    (∀ p : ResolutionProvider, resolveModelAlias p "unknown-model" = none) ∧
    resolveModelAlias .anthropic "sonnet" = some "claude-sonnet-4-20250514" ∧
    resolveModelAlias .openai "gpt-5-nano" = some "gpt-5-nano" := by
  refine ⟨fun _ _ => rfl, ?_, ?_, rfl, rfl⟩
  · intro p name hm ha
    rcases hAM : AVAILABLE_MODELS p with ⟨models, aliases⟩
    rw [hAM] at hm ha
    unfold resolveModelAlias
    rw [hAM]
    dsimp only
    rw [assoc_lookup_eq_none aliases name (by simpa using ha)]
    rw [if_neg]
    intro hc
    exact hm (List.mem_of_elem_eq_true hc)
  · intro p
    cases p <;> rfl

theorem C4_alias_resolution_deterministic_witness :
    resolveModelAlias .anthropic "gpt-oss" = none :=
  C4_alias_resolution_deterministic.2.1 .anthropic "gpt-oss" (by decide) (by decide)

/-! ### `verify` (src/src/codebase_summarizer/main.py, lines 100-196)

Python resolves attribute accesses at call time; calling a missing method
raises `AttributeError`.  The method sets below are copied from the class
bodies of `SummaryGenerator` (src/src/services/summary_generator.py) and
`AnalysisOrchestrator` (src/src/services/analysis_orchestrator.py). -/

def summaryGeneratorMethods : List String :=
  ["__init__", "generate_agents_md_content", "serialize_to_markdown",
   "_generate_file_types_summary", "_generate_skillsets_summary",
   "_generate_apis_summary", "_calculate_table_of_contents",
   "write_to_file", "create_metadata"]

def analysisOrchestratorMethods : List String :=
  ["__init__", "_register_default_parsers", "register_parser",
   "analyze_directory", "_get_source_files", "_analyze_file",
   "_find_parser_for_file", "_aggregate_analysis_results",
   "get_supported_extensions"]

def callMethod (methods : List String) (name : String) : Except String Unit :=
  if methods.contains name then .ok ()
  else .error ("AttributeError: " ++ name)

/-- The body of the per-directory check in `verify` (main.py lines 155-176):
analyze the directory, build the expected content with
`generator.create_metadata`, `generator.generate_semantic_content` and
`generator.serialize_to_xml`, read the file, and compare with
`_content_matches`.  The comparison outcome is a parameter because the
AttributeError fires before it is ever reached. -/
def verifyDirectoryBody (matchesResult : Bool) : Except String Bool := do
  _ ← callMethod analysisOrchestratorMethods "analyze_directory"
  _ ← callMethod summaryGeneratorMethods "create_metadata"
  _ ← callMethod summaryGeneratorMethods "generate_semantic_content"
  _ ← callMethod summaryGeneratorMethods "serialize_to_xml"
  pure matchesResult

/-- The `verify` loop over the directories to process.  Each entry of `dirs`
says whether that directory's `.semantic` file exists; a missing file is
recorded as out of sync, an exception aborts the loop.  Returns the number of
out-of-sync files. -/
def verifyLoop (matchesResult : Bool) : List Bool → Nat → Except String Nat
  | [], outOfSync => .ok outOfSync
  | fileExists :: rest, outOfSync =>
    if fileExists then
      match verifyDirectoryBody matchesResult with
      | .error e => .error e
      | .ok m => verifyLoop matchesResult rest (if m then outOfSync else outOfSync + 1)
    else
      verifyLoop matchesResult rest (outOfSync + 1)

/-- The exit code of `verify`: 1 when the loop raised (caught by the outer
`except Exception`) or when any file is out of sync, 0 otherwise. -/
def verifyExitCode (matchesResult : Bool) (dirs : List Bool) : Nat :=
  match verifyLoop matchesResult dirs 0 with
  | .error _ => 1
  | .ok outOfSync => if outOfSync = 0 then 0 else 1

/-- C1: the claim fails on the code.  `verify` builds its expected content by
calling `generator.generate_semantic_content` and
`generator.serialize_to_xml`, but `SummaryGenerator` defines neither method,
so on any tree with at least one directory to check — in particular a freshly
generated one, where every `.semantic` file exists — the first directory
raises `AttributeError` and `verify` exits 1, never 0. -/
theorem C1_verify_exits_nonzero_on_fresh_tree :
    "generate_semantic_content" ∉ summaryGeneratorMethods ∧
    "serialize_to_xml" ∉ summaryGeneratorMethods ∧
    (∀ matchesResult : Bool,
      verifyDirectoryBody matchesResult =
        .error "AttributeError: generate_semantic_content") ∧
    (∀ (matchesResult : Bool) (k : Nat),
      verifyExitCode matchesResult (List.replicate (k + 1) true) = 1) := by
  refine ⟨by decide, by decide, ?_, ?_⟩
  · intro matchesResult
    rfl
  · intro matchesResult k
    rfl

/-! ### Decimal representation facts

`_deduplicate_apis` builds dictionary keys of the form
f"{name}_{start_line // 10}".  To reason about key collisions we need that the
decimal digits produced by `Nat.repr` never contain '_' and that `Nat.repr`
is injective (via a left inverse that re-evaluates the digit string). -/

def charToDigit (c : Char) : Nat := c.toNat - '0'.toNat

def valDigits (l : List Char) : Nat := l.foldl (fun a c => 10 * a + charToDigit c) 0

theorem digitChar_facts {d : Nat} (hd : d < 10) :
    Nat.digitChar d ≠ '_' ∧ charToDigit (Nat.digitChar d) = d := by
  interval_cases d <;> exact ⟨by decide, by decide⟩

theorem toDigitsCore_append :
    ∀ (fuel n : Nat) (acc : List Char),
      Nat.toDigitsCore 10 fuel n acc = Nat.toDigitsCore 10 fuel n [] ++ acc := by
  intro fuel
  induction fuel with
  | zero => intro n acc; rfl
  | succ fuel ih =>
    intro n acc
    simp only [Nat.toDigitsCore]
    by_cases h : n / 10 = 0
    · simp [h]
    · rw [if_neg h, if_neg h, ih (n / 10) [Nat.digitChar (n % 10)],
        ih (n / 10) (Nat.digitChar (n % 10) :: acc)]
      simp

theorem toDigitsCore_spec :
    ∀ (fuel n : Nat), n < fuel →
      (∀ c ∈ Nat.toDigitsCore 10 fuel n [], c ≠ '_') ∧
      Nat.toDigitsCore 10 fuel n [] ≠ [] ∧
      valDigits (Nat.toDigitsCore 10 fuel n []) = n := by
  intro fuel
  induction fuel with
  | zero => intro n hn; omega
  | succ fuel ih =>
    intro n hn
    have hmod : n % 10 < 10 := Nat.mod_lt _ (by omega)
    obtain ⟨hdig, hval⟩ := digitChar_facts hmod
    simp only [Nat.toDigitsCore]
    by_cases h : n / 10 = 0
    · have hn10 : n < 10 := by omega
      rw [if_pos h]
      refine ⟨?_, by simp, ?_⟩
      · intro c hc
        simp only [List.mem_singleton] at hc
        subst hc
        exact hdig
      · simp only [valDigits, List.foldl_cons, List.foldl_nil]
        omega
    · have hlt : n / 10 < fuel := by
        have h1 : n / 10 < n := Nat.div_lt_self (by omega) (by omega)
        omega
      obtain ⟨ih1, ih2, ih3⟩ := ih (n / 10) hlt
      rw [if_neg h, toDigitsCore_append fuel (n / 10) [Nat.digitChar (n % 10)]]
      refine ⟨?_, by simp, ?_⟩
      · intro c hc
        rcases List.mem_append.mp hc with hc | hc
        · exact ih1 c hc
        · simp only [List.mem_singleton] at hc
          subst hc
          exact hdig
      · simp only [valDigits, List.foldl_append, List.foldl_cons, List.foldl_nil]
        simp only [valDigits] at ih3
        rw [ih3, hval]
        omega

theorem repr_data (n : Nat) :
    (Nat.repr n).data = Nat.toDigitsCore 10 (n + 1) n [] := rfl

theorem repr_facts (n : Nat) :
    (∀ c ∈ (Nat.repr n).data, c ≠ '_') ∧
    (Nat.repr n).data ≠ [] ∧
    valDigits (Nat.repr n).data = n := by
  rw [repr_data]
  exact toDigitsCore_spec (n + 1) n (by omega)

theorem string_data_inj {s t : String} (h : s.data = t.data) : s = t := by
  cases s
  cases t
  simp only at h
  rw [h]

/-- Splitting a character list at a separator that occurs in neither suffix is
unambiguous. -/
theorem append_sep_cancel :
    ∀ (l1 l2 d1 d2 : List Char), '_' ∉ d1 → '_' ∉ d2 →
      l1 ++ '_' :: d1 = l2 ++ '_' :: d2 → l1 = l2 ∧ d1 = d2 := by
  intro l1
  induction l1 with
  | nil =>
    intro l2 d1 d2 h1 h2 heq
    cases l2 with
    | nil => simpa using heq
    | cons x l2' =>
      simp only [List.nil_append, List.cons_append, List.cons.injEq] at heq
      obtain ⟨hx, htl⟩ := heq
      exfalso
      apply h1
      rw [htl]
      exact List.mem_append.mpr (Or.inr (by simp [hx]))
  | cons a l1' ih =>
    intro l2 d1 d2 h1 h2 heq
    cases l2 with
    | nil =>
      simp only [List.cons_append, List.nil_append, List.cons.injEq] at heq
      obtain ⟨hx, htl⟩ := heq
      exfalso
      apply h2
      rw [← htl]
      exact List.mem_append.mpr (Or.inr (by simp [hx]))
    | cons b l2' =>
      simp only [List.cons_append, List.cons.injEq] at heq
      obtain ⟨hab, htl⟩ := heq
      obtain ⟨hl, hd⟩ := ih l2' d1 d2 h1 h2 htl
      exact ⟨by rw [hab, hl], hd⟩

theorem underscore_key_inj {n1 n2 : String} {b1 b2 : Nat}
    (h : n1 ++ "_" ++ Nat.repr b1 = n2 ++ "_" ++ Nat.repr b2) :
    n1 = n2 ∧ b1 = b2 := by
  have hdata : n1.data ++ '_' :: (Nat.repr b1).data =
      n2.data ++ '_' :: (Nat.repr b2).data := by
    have := congrArg String.data h
    simpa [List.append_assoc] using this
  have h1 : '_' ∉ (Nat.repr b1).data := fun hmem => (repr_facts b1).1 _ hmem rfl
  have h2 : '_' ∉ (Nat.repr b2).data := fun hmem => (repr_facts b2).1 _ hmem rfl
  obtain ⟨hn, hd⟩ := append_sep_cancel n1.data n2.data _ _ h1 h2 hdata
  refine ⟨string_data_inj hn, ?_⟩
  have v1 := (repr_facts b1).2.2
  have v2 := (repr_facts b2).2.2
  rw [← v1, ← v2, hd]

/-! ### `_deduplicate_apis` (src/src/services/llm_client.py, lines 430-459) -/

/-- Modelled from the spec: `ApiInfo` lives in models/data_models.py, which is
not under src/.  Its fields are taken from the constructor calls in
`_parse_api_analysis_response` and the spec glossary ("API entry: a name +
one-line description + line range").  It is a Python dataclass, so `==` / `!=`
compare field-wise, which structure equality mirrors; line numbers are
modelled as naturals. -/
structure ApiInfo where
  name : String
  semantic_description : String
  source_file : String
  start_line : Nat
  end_line : Nat
deriving DecidableEq

/-- The dictionary key f"{api.name}_{api.start_line // 10}". -/
def apiKey (a : ApiInfo) : String :=
  a.name ++ "_" ++ Nat.repr (a.start_line / 10)

theorem apiKey_eq_iff {a b : ApiInfo} :
    apiKey a = apiKey b ↔ (a.name = b.name ∧ a.start_line / 10 = b.start_line / 10) := by
  constructor
  · exact fun h => underscore_key_inj h
  · intro ⟨h1, h2⟩
    unfold apiKey
    rw [h1, h2]

/-- Python dict assignment to an existing key. -/
def updateSeen (seen : List (String × ApiInfo)) (k : String) (v : ApiInfo) :
    List (String × ApiInfo) :=
  seen.map fun p => if p.1 = k then (k, v) else p

/-- The loop of `_deduplicate_apis`: `seen` is the `seen_apis` dict (as an
association list: insertion position does not affect lookups because each key
is bound once), `unique` is the `unique_apis` list.  A new key appends the
entry; a seen key keeps the better (strictly longer) description, removing the
previously kept entry by value equality and appending the replacement. -/
def dedupGo : List ApiInfo → List (String × ApiInfo) → List ApiInfo →
    List (String × ApiInfo) × List ApiInfo
  | [], seen, unique => (seen, unique)
  | api :: rest, seen, unique =>
    match seen.lookup (apiKey api) with
    | none => dedupGo rest ((apiKey api, api) :: seen) (unique ++ [api])
    | some existing =>
      if existing.semantic_description.length < api.semantic_description.length then
        dedupGo rest (updateSeen seen (apiKey api) api)
          ((unique.filter fun a => decide (a ≠ existing)) ++ [api])
      else
        dedupGo rest seen unique

def deduplicateApis (apis : List ApiInfo) : List ApiInfo :=
  (dedupGo apis [] []).2

theorem lookup_cons (k k' : String) (v : ApiInfo) (l : List (String × ApiInfo)) :
    List.lookup k ((k', v) :: l) = if k' = k then some v else List.lookup k l := by
  simp only [List.lookup]
  by_cases h : k' = k
  · subst h
    simp
  · have hb : (k == k') = false := beq_eq_false_iff_ne.mpr fun he => h he.symm
    simp [hb, h]

theorem lookup_updateSeen (seen : List (String × ApiInfo)) (k k' : String) (v : ApiInfo) :
    List.lookup k' (updateSeen seen k v) =
      if k' = k then (List.lookup k seen).map fun _ => v
      else List.lookup k' seen := by
  induction seen with
  | nil =>
    simp only [updateSeen, List.map_nil, List.lookup]
    split <;> rfl
  | cons p rest ih =>
    obtain ⟨pk, pv⟩ := p
    show List.lookup k' ((if pk = k then (k, v) else (pk, pv)) :: updateSeen rest k v) = _
    by_cases hpk : pk = k
    · subst hpk
      rw [if_pos rfl, lookup_cons]
      by_cases hk' : k' = pk
      · subst hk'
        rw [if_pos rfl, if_pos rfl, lookup_cons, if_pos rfl]
        simp
      · rw [if_neg (fun h => hk' h.symm), if_neg hk', lookup_cons,
          if_neg (fun h => hk' h.symm), ih, if_neg hk']
    · rw [if_neg hpk, lookup_cons]
      by_cases hk' : pk = k'
      · subst hk'
        rw [if_pos rfl, if_neg hpk, lookup_cons, if_pos rfl]
      · rw [if_neg hk', ih]
        by_cases hkk : k' = k
        · rw [if_pos hkk, if_pos hkk]
          congr 1
          rw [lookup_cons, if_neg hpk]
        · rw [if_neg hkk, if_neg hkk, lookup_cons, if_neg hk']

/-- Invariant tying the `seen_apis` dict to the `unique_apis` list. -/
def SeenInv (seen : List (String × ApiInfo)) (unique : List ApiInfo) : Prop :=
  (∀ k a, List.lookup k seen = some a → a ∈ unique ∧ apiKey a = k) ∧
  (∀ a ∈ unique, List.lookup (apiKey a) seen = some a) ∧
  List.Pairwise (fun a b => apiKey a ≠ apiKey b) unique

theorem dedupGo_spec :
    ∀ (rest : List ApiInfo) (seen : List (String × ApiInfo)) (unique : List ApiInfo),
      SeenInv seen unique →
      SeenInv (dedupGo rest seen unique).1 (dedupGo rest seen unique).2 ∧
      (∀ a ∈ (dedupGo rest seen unique).2, a ∈ unique ∨ a ∈ rest) ∧
      (∀ a, a ∈ unique ∨ a ∈ rest →
        ∃ b ∈ (dedupGo rest seen unique).2, apiKey b = apiKey a ∧
          a.semantic_description.length ≤ b.semantic_description.length) := by
  intro rest
  induction rest with
  | nil =>
    intro seen unique hinv
    refine ⟨hinv, fun a ha => Or.inl ha, ?_⟩
    intro a ha
    rcases ha with ha | ha
    · exact ⟨a, ha, rfl, le_refl _⟩
    · simp at ha
  | cons api rest ih =>
    intro seen unique hinv
    obtain ⟨inv1, inv2, inv3⟩ := hinv
    simp only [dedupGo]
    cases hlk : List.lookup (apiKey api) seen with
    | none =>
      have hnotin : ∀ a ∈ unique, apiKey a ≠ apiKey api := by
        intro a ha heq
        have := inv2 a ha
        rw [heq] at this
        rw [hlk] at this
        exact Option.noConfusion this
      have hinv' : SeenInv ((apiKey api, api) :: seen) (unique ++ [api]) := by
        refine ⟨?_, ?_, ?_⟩
        · intro k a hka
          rw [lookup_cons] at hka
          by_cases hk : apiKey api = k
          · rw [if_pos hk] at hka
            cases hka
            exact ⟨List.mem_append.mpr (Or.inr (by simp)), hk⟩
          · rw [if_neg hk] at hka
            obtain ⟨hmem, hkey⟩ := inv1 k a hka
            exact ⟨List.mem_append.mpr (Or.inl hmem), hkey⟩
        · intro a ha
          rcases List.mem_append.mp ha with ha | ha
          · rw [lookup_cons, if_neg (fun h => hnotin a ha h.symm), inv2 a ha]
          · simp only [List.mem_singleton] at ha
            subst ha
            rw [lookup_cons, if_pos rfl]
        · rw [List.pairwise_append]
          refine ⟨inv3, by simp, ?_⟩
          intro a ha b hb
          simp only [List.mem_singleton] at hb
          subst hb
          exact hnotin a ha
      obtain ⟨rinv, rsub, rbest⟩ := ih _ _ hinv'
      refine ⟨rinv, ?_, ?_⟩
      · intro a ha
        rcases rsub a ha with h | h
        · rcases List.mem_append.mp h with h | h
          · exact Or.inl h
          · simp only [List.mem_singleton] at h
            exact Or.inr (by simp [h])
        · exact Or.inr (by simp [h])
      · intro a ha
        rcases ha with ha | ha
        · exact rbest a (Or.inl (List.mem_append.mpr (Or.inl ha)))
        · rcases List.mem_cons.mp ha with ha | ha
          · subst ha
            exact rbest a (Or.inl (List.mem_append.mpr (Or.inr (by simp))))
          · exact rbest a (Or.inr ha)
    | some existing =>
      obtain ⟨hexmem, hexkey⟩ := inv1 _ _ hlk
      dsimp only
      by_cases hlen : existing.semantic_description.length < api.semantic_description.length
      · rw [if_pos hlen]
        have hfilter_mem : ∀ a, a ∈ unique.filter (fun a => decide (a ≠ existing)) ↔
            (a ∈ unique ∧ a ≠ existing) := by
          intro a
          rw [List.mem_filter]
          simp
        have hkeyne : ∀ a ∈ unique, a ≠ existing → apiKey a ≠ apiKey api := by
          intro a ha hne heq
          have h1 := inv2 a ha
          rw [heq] at h1
          rw [hlk] at h1
          injection h1 with h1
          exact hne h1.symm
        have hinv' : SeenInv (updateSeen seen (apiKey api) api)
            ((unique.filter fun a => decide (a ≠ existing)) ++ [api]) := by
          refine ⟨?_, ?_, ?_⟩
          · intro k a hka
            rw [lookup_updateSeen] at hka
            by_cases hk : k = apiKey api
            · rw [if_pos hk, hlk] at hka
              have haa : api = a := by simpa using hka
              subst haa
              exact ⟨List.mem_append.mpr (Or.inr (by simp)), hk.symm⟩
            · rw [if_neg hk] at hka
              obtain ⟨hmem, hkey⟩ := inv1 k a hka
              have hane : a ≠ existing := by
                intro h
                subst h
                apply hk
                rw [← hkey]
                exact hexkey
              exact ⟨List.mem_append.mpr (Or.inl ((hfilter_mem a).mpr ⟨hmem, hane⟩)), hkey⟩
          · intro a ha
            rcases List.mem_append.mp ha with ha | ha
            · obtain ⟨hmem, hane⟩ := (hfilter_mem a).mp ha
              rw [lookup_updateSeen, if_neg (hkeyne a hmem hane), inv2 a hmem]
            · simp only [List.mem_singleton] at ha
              subst ha
              rw [lookup_updateSeen, if_pos rfl, hlk]
              simp
          · rw [List.pairwise_append]
            refine ⟨List.Pairwise.filter _ inv3, by simp, ?_⟩
            intro a ha b hb
            simp only [List.mem_singleton] at hb
            subst hb
            obtain ⟨hmem, hane⟩ := (hfilter_mem a).mp ha
            exact hkeyne a hmem hane
        obtain ⟨rinv, rsub, rbest⟩ := ih _ _ hinv'
        refine ⟨rinv, ?_, ?_⟩
        · intro a ha
          rcases rsub a ha with h | h
          · rcases List.mem_append.mp h with h | h
            · exact Or.inl ((hfilter_mem a).mp h).1
            · simp only [List.mem_singleton] at h
              exact Or.inr (by simp [h])
          · exact Or.inr (by simp [h])
        · intro a ha
          have hbase : ∀ c, c ∈ (unique.filter fun a => decide (a ≠ existing)) ++ [api] →
              ∃ b ∈ (dedupGo rest (updateSeen seen (apiKey api) api)
                ((unique.filter fun a => decide (a ≠ existing)) ++ [api])).2,
                apiKey b = apiKey c ∧
                c.semantic_description.length ≤ b.semantic_description.length :=
            fun c hc => rbest c (Or.inl hc)
          rcases ha with ha | ha
          · by_cases hae : a = existing
            · subst hae
              obtain ⟨b, hb, hbk, hbl⟩ :=
                hbase api (List.mem_append.mpr (Or.inr (by simp)))
              exact ⟨b, hb, by rw [hbk, hexkey], by omega⟩
            · exact hbase a (List.mem_append.mpr (Or.inl ((hfilter_mem a).mpr ⟨ha, hae⟩)))
          · rcases List.mem_cons.mp ha with ha | ha
            · subst ha
              exact hbase a (List.mem_append.mpr (Or.inr (by simp)))
            · exact rbest a (Or.inr ha)
      · rw [if_neg hlen]
        obtain ⟨rinv, rsub, rbest⟩ := ih _ _ ⟨inv1, inv2, inv3⟩
        refine ⟨rinv, ?_, ?_⟩
        · intro a ha
          rcases rsub a ha with h | h
          · exact Or.inl h
          · exact Or.inr (by simp [h])
        · intro a ha
          rcases ha with ha | ha
          · exact rbest a (Or.inl ha)
          · rcases List.mem_cons.mp ha with ha | ha
            · subst ha
              obtain ⟨b, hb, hbk, hbl⟩ := rbest existing (Or.inl hexmem)
              exact ⟨b, hb, by rw [hbk, hexkey], by omega⟩
            · exact rbest a (Or.inr ha)

theorem dedupGo_all_new :
    ∀ (rest : List ApiInfo) (seen : List (String × ApiInfo)) (unique : List ApiInfo),
      (∀ a ∈ rest, List.lookup (apiKey a) seen = none) →
      List.Pairwise (fun a b => apiKey a ≠ apiKey b) rest →
      (dedupGo rest seen unique).2 = unique ++ rest := by
  intro rest
  induction rest with
  | nil => intro seen unique _ _; simp [dedupGo]
  | cons api rest ih =>
    intro seen unique hnone hpw
    have hlk := hnone api (by simp)
    simp only [dedupGo, hlk]
    rw [List.pairwise_cons] at hpw
    have : (dedupGo rest ((apiKey api, api) :: seen) (unique ++ [api])).2 =
        (unique ++ [api]) ++ rest := by
      apply ih
      · intro a ha
        rw [lookup_cons, if_neg (hpw.1 a ha), hnone a (by simp [ha])]
      · exact hpw.2
    rw [this]
    simp

theorem pairwise_key_unique {l : List ApiInfo}
    (h : l.Pairwise fun a b => apiKey a ≠ apiKey b) :
    ∀ x ∈ l, ∀ y ∈ l, apiKey x = apiKey y → x = y := by
  induction l with
  | nil => intro x hx; simp at hx
  | cons a rest ih =>
    rw [List.pairwise_cons] at h
    intro x hx y hy hk
    rcases List.mem_cons.mp hx with hx1 | hx1
    · rcases List.mem_cons.mp hy with hy1 | hy1
      · rw [hx1, hy1]
      · exfalso
        rw [hx1] at hk
        exact h.1 y hy1 hk
    · rcases List.mem_cons.mp hy with hy1 | hy1
      · exfalso
        rw [hy1] at hk
        exact h.1 x hx1 hk.symm
      · exact ih h.2 x hx1 y hy1 hk

/-- C3: deduplication keeps only entries from the input; any two kept entries
agreeing on name and 10-line bucket (start_line / 10) are the same entry; each
input entry's (name, bucket) group is represented by a kept entry whose
description is at least as long; and when all entries have pairwise distinct
names or buckets, everything is kept unchanged. -/
theorem C3_deduplicate_apis (apis : List ApiInfo) :
    (∀ a ∈ deduplicateApis apis, a ∈ apis) ∧
    (∀ x ∈ deduplicateApis apis, ∀ y ∈ deduplicateApis apis,
      x.name = y.name → x.start_line / 10 = y.start_line / 10 → x = y) ∧
    (∀ a ∈ apis, ∃ b ∈ deduplicateApis apis,
      b.name = a.name ∧ b.start_line / 10 = a.start_line / 10 ∧
      a.semantic_description.length ≤ b.semantic_description.length) ∧
    (apis.Pairwise (fun a b => a.name ≠ b.name ∨ a.start_line / 10 ≠ b.start_line / 10) →
      deduplicateApis apis = apis) := by
  have hinv0 : SeenInv [] [] := ⟨fun k a h => by simp [List.lookup] at h, fun a h => by simp at h, by simp⟩
  obtain ⟨⟨_, _, hpw⟩, hsub, hbest⟩ := dedupGo_spec apis [] [] hinv0
  refine ⟨?_, ?_, ?_, ?_⟩
  · intro a ha
    rcases hsub a ha with h | h
    · simp at h
    · exact h
  · intro x hx y hy hn hb
    exact pairwise_key_unique hpw x hx y hy (apiKey_eq_iff.mpr ⟨hn, hb⟩)
  · intro a ha
    obtain ⟨b, hb, hbk, hbl⟩ := hbest a (Or.inr ha)
    obtain ⟨hn, hbq⟩ := apiKey_eq_iff.mp hbk
    exact ⟨b, hb, hn, hbq, hbl⟩
  · intro hpairwise
    have hkeys : apis.Pairwise fun a b => apiKey a ≠ apiKey b := by
      refine hpairwise.imp ?_
      intro a b hab hk
      obtain ⟨hn, hb⟩ := apiKey_eq_iff.mp hk
      rcases hab with h | h
      · exact h hn
      · exact h hb
    have := dedupGo_all_new apis [] [] (fun a _ => by simp [List.lookup]) hkeys
    simpa [deduplicateApis] using this

theorem C3_deduplicate_apis_witness :
    ∃ b ∈ deduplicateApis
        [{ name := "f", semantic_description := "short", source_file := "x.py",
           start_line := 12, end_line := 20 },
         { name := "f", semantic_description := "a longer description", source_file := "x.py",
           start_line := 15, end_line := 22 }],
      b.name = "f" ∧ b.start_line / 10 = 12 / 10 ∧
      "short".length ≤ b.semantic_description.length :=
  (C3_deduplicate_apis _).2.2.1 _ (List.mem_cons_self _ _)

/-! ### `_create_overlapping_chunks` (src/src/services/llm_client.py,
lines 356-399) and its callers (lines 320-354, 490-528)

Both callers compute `chunk_size = int(context_window * 0.35)` and
`overlap_size = int(context_window * 0.05)` from
`get_context_window_size()`, whose default model "gpt-5-mini" gives 400000,
so chunk_size = 140000 tokens and overlap_size = 20000 tokens; token sizes
are converted to characters at 4 characters per token (560000 and 80000
characters).  The float products 400000*0.35, 400000*0.05 and 400000*0.4
round down to exactly those integers.

The while loop is modelled with explicit fuel: `none` means the fuel ran out
while the loop still wanted to iterate, i.e. the loop would not have
terminated within that many iterations.  Since the loop position advances by
at least one character per iteration when it terminates at all,
`content.length` iterations are sufficient, and that is the fuel the wrapper
passes.  The loop body computes the chunk as `content[current_pos:chunk_end]`
(after the optional newline trim, `chunk_text` is always exactly that slice),
so the model records the `(current_pos, chunk_end)` spans and recovers each
chunk text by slicing.  The guard
`if current_pos <= len(chunks[-1]) if chunks else False` compares the new
position against the LENGTH of the last chunk (`chunk_end - current_pos`);
`chunks` is nonempty whenever it runs.  Python's possibly negative
`chunk_end - overlap_size_chars` is modelled through `Int`. -/

def contextWindows : List (String × Nat) :=
  [("gpt-3.5-turbo", 16385), ("gpt-4", 8192), ("gpt-4-turbo-preview", 128000),
   ("gpt-4o", 128000), ("gpt-4o-mini", 128000), ("gpt-5-nano", 400000),
   ("gpt-5-mini", 400000), ("gpt-5", 400000)]

def get_context_window_size (model : String) : Nat :=
  (contextWindows.lookup model).getD 400000

def estimate_tokens (text : List Char) : Nat := text.length / 4

/-- `int(context_window * 0.4)` with the default context window. -/
def chunkingThreshold : Nat := get_context_window_size "gpt-5-mini" * 4 / 10

/-- `int(context_window * 0.35)`: chunk size in tokens as both callers pass it. -/
def chunkSizeTokens : Nat := get_context_window_size "gpt-5-mini" * 35 / 100

/-- `int(context_window * 0.05)`: overlap size in tokens as both callers pass it. -/
def overlapSizeTokens : Nat := get_context_window_size "gpt-5-mini" * 5 / 100

/-- One loop iteration's final `chunk_end`: the tentative end
`min(current_pos + chunk_size_chars, len(content))`, moved back to the last
newline of the tentative chunk when that newline lies in its latter half. -/
def chunkStepEnd (content : List Char) (csChars pos : Nat) : Nat :=
  let n := content.length
  let e0 := min (pos + csChars) n
  if e0 < n then
    let chunkText := (content.drop pos).take (e0 - pos)
    match pyRfind chunkText '\n' with
    | some lastNewline =>
      if chunkText.length / 2 < lastNewline then pos + lastNewline else e0
    | none => e0
  else e0

/-- The next `current_pos`: `chunk_end - overlap_size_chars`, reset to
`chunk_end` when it does not exceed the last chunk's length. -/
def chunkNextPos (osChars pos e : Nat) : Nat :=
  let p1 : Int := (e : Int) - (osChars : Int)
  if p1 ≤ ((e - pos : Nat) : Int) then e else p1.toNat

def chunkSpansAux (content : List Char) (csChars osChars : Nat) :
    Nat → Nat → Option (List (Nat × Nat))
  | 0, pos => if pos < content.length then none else some []
  | fuel + 1, pos =>
    if pos < content.length then
      let e := chunkStepEnd content csChars pos
      if content.length ≤ e then some [(pos, e)]
      else
        match chunkSpansAux content csChars osChars fuel (chunkNextPos osChars pos e) with
        | none => none
        | some spans => some ((pos, e) :: spans)
    else some []

def createOverlappingChunksSpans (content : List Char) (csTokens osTokens : Nat) :
    Option (List (Nat × Nat)) :=
  chunkSpansAux content (csTokens * 4) (osTokens * 4) content.length 0

def spanSlice (content : List Char) (s : Nat × Nat) : List Char :=
  (content.drop s.1).take (s.2 - s.1)

def createOverlappingChunks (content : List Char) (csTokens osTokens : Nat) :
    Option (List (List Char)) :=
  (createOverlappingChunksSpans content csTokens osTokens).map (List.map (spanSlice content))

/-- The spans produced with the sizes the callers pass. -/
def chunkSpans (content : List Char) : List (Nat × Nat) :=
  (createOverlappingChunksSpans content chunkSizeTokens overlapSizeTokens).getD []

theorem chunkSizeTokens_eq : chunkSizeTokens = 140000 := rfl

theorem overlapSizeTokens_eq : overlapSizeTokens = 20000 := rfl

theorem chunkingThreshold_eq : chunkingThreshold = 160000 := rfl

theorem chunkStepEnd_gt {content : List Char} {csChars pos : Nat}
    (hp : pos < content.length) (hcs : 0 < csChars) :
    pos < chunkStepEnd content csChars pos := by
  unfold chunkStepEnd
  simp only
  set n := content.length with hn
  have he0 : pos < min (pos + csChars) n := by omega
  by_cases h : min (pos + csChars) n < n
  · rw [if_pos h]
    cases hr : pyRfind ((content.drop pos).take (min (pos + csChars) n - pos)) '\n' with
    | none =>
      dsimp only
      exact he0
    | some lastNewline =>
      dsimp only
      by_cases hln : ((content.drop pos).take (min (pos + csChars) n - pos)).length / 2 < lastNewline
      · rw [if_pos hln]
        omega
      · rw [if_neg hln]
        exact he0
  · rw [if_neg h]
    exact he0

theorem chunkStepEnd_le {content : List Char} {csChars pos : Nat}
    (hp : pos < content.length) :
    chunkStepEnd content csChars pos ≤ content.length := by
  unfold chunkStepEnd
  simp only
  set n := content.length with hn
  by_cases h : min (pos + csChars) n < n
  · rw [if_pos h]
    cases hr : pyRfind ((content.drop pos).take (min (pos + csChars) n - pos)) '\n' with
    | none =>
      dsimp only
      omega
    | some lastNewline =>
      dsimp only
      have hlen : ((content.drop pos).take (min (pos + csChars) n - pos)).length =
          min (pos + csChars) n - pos := by
        simp [List.length_take, List.length_drop]
        omega
      have hlt := pyRfind_lt_length hr
      rw [hlen] at hlt
      by_cases hln : ((content.drop pos).take (min (pos + csChars) n - pos)).length / 2 < lastNewline
      · rw [if_pos hln]
        omega
      · rw [if_neg hln]
        omega
  · rw [if_neg h]
    omega

theorem chunkStepEnd_span_le {content : List Char} {csChars pos : Nat}
    (hp : pos < content.length) :
    chunkStepEnd content csChars pos ≤ pos + csChars := by
  unfold chunkStepEnd
  simp only
  set n := content.length with hn
  by_cases h : min (pos + csChars) n < n
  · rw [if_pos h]
    cases hr : pyRfind ((content.drop pos).take (min (pos + csChars) n - pos)) '\n' with
    | none =>
      dsimp only
      omega
    | some lastNewline =>
      dsimp only
      have hlen : ((content.drop pos).take (min (pos + csChars) n - pos)).length =
          min (pos + csChars) n - pos := by
        simp [List.length_take, List.length_drop]
        omega
      have hlt := pyRfind_lt_length hr
      rw [hlen] at hlt
      by_cases hln : ((content.drop pos).take (min (pos + csChars) n - pos)).length / 2 < lastNewline
      · rw [if_pos hln]
        omega
      · rw [if_neg hln]
        omega
  · rw [if_neg h]
    omega

/-- When the loop continues (`chunk_end < len(content)`), the chunk spans more
than half the chunk budget: the tentative end was `pos + csChars`, and a
newline trim only moves the end back to the latter half of the chunk. -/
theorem chunkStepEnd_big {content : List Char} {csChars pos : Nat}
    (hp : pos < content.length) (hcs : 0 < csChars)
    (hlt : chunkStepEnd content csChars pos < content.length) :
    csChars / 2 < chunkStepEnd content csChars pos - pos := by
  revert hlt
  unfold chunkStepEnd
  simp only
  set n := content.length with hn
  by_cases h : min (pos + csChars) n < n
  · rw [if_pos h]
    have he0 : min (pos + csChars) n = pos + csChars := by omega
    cases hr : pyRfind ((content.drop pos).take (min (pos + csChars) n - pos)) '\n' with
    | none =>
      dsimp only
      intro _
      omega
    | some lastNewline =>
      dsimp only
      have hlen : ((content.drop pos).take (min (pos + csChars) n - pos)).length =
          min (pos + csChars) n - pos := by
        simp [List.length_take, List.length_drop]
        omega
      by_cases hln : ((content.drop pos).take (min (pos + csChars) n - pos)).length / 2 < lastNewline
      · rw [if_pos hln]
        rw [hlen, he0] at hln
        intro _
        omega
      · rw [if_neg hln]
        intro _
        omega
  · rw [if_neg h]
    intro hlt
    omega

theorem chunkNextPos_spec (osChars pos e : Nat) (hpe : pos ≤ e) :
    chunkNextPos osChars pos e = if pos ≤ osChars then e else e - osChars := by
  unfold chunkNextPos
  simp only
  have hcast : (((e - pos : Nat)) : Int) = (e : Int) - (pos : Int) := by omega
  by_cases hpos : pos ≤ osChars
  · rw [if_pos hpos, if_pos]
    rw [hcast]
    omega
  · rw [if_neg hpos, if_neg]
    · omega
    · rw [hcast]
      omega

/-- Loop invariant for `_create_overlapping_chunks` at the callers' sizes
(560000 chunk characters, 80000 overlap characters): starting at `pos` with at
least `content.length - pos` fuel, the loop terminates; the produced spans
start at `pos`, are nonempty in-bounds slices of at most the chunk budget, the
last one ends at the end of the content, and each step either restarts at the
previous chunk's end (when its start was ≤ 80000, i.e. the dict-guard fired)
or backs up by exactly the 80000-character overlap. -/
theorem chunkSpansAux_spec (content : List Char) :
    ∀ (fuel pos : Nat), content.length - pos ≤ fuel → pos < content.length →
      ∃ spans, chunkSpansAux content 560000 80000 fuel pos = some spans ∧
        (∃ e rest, spans = (pos, e) :: rest) ∧
        (∀ s ∈ spans, s.1 < s.2 ∧ s.2 ≤ content.length ∧ s.2 - s.1 ≤ 560000) ∧
        ((spans.getLast?).map Prod.snd = some content.length) ∧
        List.Chain' (fun a b =>
          (a.1 ≤ 80000 → b.1 = a.2) ∧ (80000 < a.1 → b.1 = a.2 - 80000 ∧ b.1 < a.2) ∧
          80000 < b.1)
          spans := by
  intro fuel
  induction fuel with
  | zero => intro pos hf hp; omega
  | succ fuel ih =>
    intro pos hf hp
    have hgt : pos < chunkStepEnd content 560000 pos := chunkStepEnd_gt hp (by omega)
    have hle : chunkStepEnd content 560000 pos ≤ content.length := chunkStepEnd_le hp
    have hspan : chunkStepEnd content 560000 pos ≤ pos + 560000 := chunkStepEnd_span_le hp
    simp only [chunkSpansAux]
    rw [if_pos hp]
    by_cases hend : content.length ≤ chunkStepEnd content 560000 pos
    · rw [if_pos hend]
      refine ⟨[(pos, chunkStepEnd content 560000 pos)], rfl,
        ⟨chunkStepEnd content 560000 pos, [], rfl⟩, ?_, ?_, List.chain'_singleton _⟩
      · intro s hs
        rw [List.mem_singleton] at hs
        subst hs
        exact ⟨hgt, hle, by omega⟩
      · have : chunkStepEnd content 560000 pos = content.length := by omega
        simp [this]
    · rw [if_neg hend]
      have hlt : chunkStepEnd content 560000 pos < content.length := by omega
      have hbig : 560000 / 2 < chunkStepEnd content 560000 pos - pos :=
        chunkStepEnd_big hp (by omega) hlt
      have hnp := chunkNextPos_spec 80000 pos (chunkStepEnd content 560000 pos) (by omega)
      have hpos2_gt : pos < chunkNextPos 80000 pos (chunkStepEnd content 560000 pos) := by
        rw [hnp]
        by_cases hc : pos ≤ 80000
        · rw [if_pos hc]; omega
        · rw [if_neg hc]; omega
      have hpos2_le : chunkNextPos 80000 pos (chunkStepEnd content 560000 pos) ≤
          chunkStepEnd content 560000 pos := by
        rw [hnp]
        by_cases hc : pos ≤ 80000
        · rw [if_pos hc]
        · rw [if_neg hc]; omega
      have hpos2_lt : chunkNextPos 80000 pos (chunkStepEnd content 560000 pos) <
          content.length := by omega
      have hfuel2 : content.length -
          chunkNextPos 80000 pos (chunkStepEnd content 560000 pos) ≤ fuel := by omega
      obtain ⟨spans, hspans, ⟨e2, rest2, hhead⟩, hbounds, hlast, hchain⟩ :=
        ih (chunkNextPos 80000 pos (chunkStepEnd content 560000 pos)) hfuel2 hpos2_lt
      rw [hspans]
      refine ⟨(pos, chunkStepEnd content 560000 pos) :: spans, rfl,
        ⟨chunkStepEnd content 560000 pos, spans, rfl⟩, ?_, ?_, ?_⟩
      · intro s hs
        rcases List.mem_cons.mp hs with hs | hs
        · subst hs
          exact ⟨hgt, hle, by omega⟩
        · exact hbounds s hs
      · rw [hhead, List.getLast?_cons_cons, ← hhead, hlast]
      · rw [hhead, List.chain'_cons]
        rw [hhead] at hchain
        refine ⟨⟨?_, ?_, ?_⟩, hchain⟩
        · intro hc
          rw [hnp, if_pos hc]
        · intro hc
          rw [hnp, if_neg (by omega)]
          constructor
          · rfl
          · omega
        · show 80000 < chunkNextPos 80000 pos (chunkStepEnd content 560000 pos)
          rw [hnp]
          by_cases hc : pos ≤ 80000
          · rw [if_pos hc]
            omega
          · rw [if_neg hc]
            omega

/-- The fuel `content.length` always suffices at the callers' sizes. -/
theorem chunkSpans_total (content : List Char) :
    createOverlappingChunksSpans content chunkSizeTokens overlapSizeTokens =
      some (chunkSpans content) := by
  unfold chunkSpans createOverlappingChunksSpans
  rw [chunkSizeTokens_eq, overlapSizeTokens_eq]
  by_cases h : 0 < content.length
  · obtain ⟨spans, hspans, _⟩ := chunkSpansAux_spec content content.length 0 (by omega) h
    rw [hspans]
    rfl
  · have hn : content.length = 0 := by omega
    rw [hn]
    simp only [chunkSpansAux]
    rw [if_neg (by omega)]
    rfl

/-- The chunk-span facts at the callers' sizes, packaged for the claims. -/
theorem chunkSpans_spec (content : List Char) (h : 0 < content.length) :
    (∃ e rest, chunkSpans content = (0, e) :: rest) ∧
    (∀ s ∈ chunkSpans content, s.1 < s.2 ∧ s.2 ≤ content.length ∧ s.2 - s.1 ≤ 560000) ∧
    (((chunkSpans content).getLast?).map Prod.snd = some content.length) ∧
    List.Chain' (fun a b =>
      (a.1 ≤ 80000 → b.1 = a.2) ∧ (80000 < a.1 → b.1 = a.2 - 80000 ∧ b.1 < a.2) ∧
      80000 < b.1)
      (chunkSpans content) := by
  obtain ⟨spans, hspans, hhead, hbounds, hlast, hchain⟩ :=
    chunkSpansAux_spec content content.length 0 (by omega) h
  have : chunkSpans content = spans := by
    unfold chunkSpans createOverlappingChunksSpans
    rw [chunkSizeTokens_eq, overlapSizeTokens_eq, hspans]
    rfl
  rw [this]
  exact ⟨hhead, hbounds, hlast, hchain⟩

/-- Chained spans whose head starts at or before `i` and whose last span ends
past `i` cover the index `i`. -/
theorem spans_cover :
    ∀ (spans : List (Nat × Nat)) (i n : Nat),
      List.Chain' (fun a b => b.1 ≤ a.2) spans →
      ((spans.getLast?).map Prod.snd = some n) →
      (∀ p e rest, spans = (p, e) :: rest → p ≤ i) →
      i < n →
      ∃ s ∈ spans, s.1 ≤ i ∧ i < s.2 := by
  intro spans
  induction spans with
  | nil =>
    intro i n _ hlast _ _
    simp at hlast
  | cons s rest ih =>
    intro i n hchain hlast hhead hin
    obtain ⟨p, e⟩ := s
    have hp : p ≤ i := hhead p e rest rfl
    cases rest with
    | nil =>
      simp only [List.getLast?_singleton, Option.map_some] at hlast
      refine ⟨(p, e), by simp, hp, ?_⟩
      have : e = n := by
        simpa using hlast
      omega
    | cons s2 rest2 =>
      by_cases hie : i < e
      · exact ⟨(p, e), by simp, hp, hie⟩
      · obtain ⟨s2p, s2e⟩ := s2
        rw [List.chain'_cons] at hchain
        have hs2p : s2p ≤ e := hchain.1
        rw [List.getLast?_cons_cons] at hlast
        obtain ⟨t, ht, ht1, ht2⟩ := ih i n hchain.2 hlast
          (by
            intro p' e' rest' heq
            injection heq with h1 h2
            injection h1 with h1a h1b
            omega)
          hin
        exact ⟨t, by simp [ht], ht1, ht2⟩

/-- C10: with the sizes the callers pass (140000-token chunks, 20000-token
overlap, both times 4 characters), the chunking loop terminates on every
input: whenever an iteration does not break (`chunk_end < len(content)`), the
next position is strictly larger, so `content.length` iterations suffice and a
finite chunk list is returned. -/
theorem C10_create_overlapping_chunks_terminates (content : List Char) :
    (∃ chunks, createOverlappingChunks content chunkSizeTokens overlapSizeTokens =
      some chunks ∧ chunks = (chunkSpans content).map (spanSlice content)) ∧
    (∀ pos : Fin content.length,
      content.length ≤ chunkStepEnd content (chunkSizeTokens * 4) pos.val ∨
      pos.val < chunkNextPos (overlapSizeTokens * 4) pos.val
        (chunkStepEnd content (chunkSizeTokens * 4) pos.val)) := by
  constructor
  · refine ⟨(chunkSpans content).map (spanSlice content), ?_, rfl⟩
    unfold createOverlappingChunks
    rw [chunkSpans_total]
    rfl
  · intro pos
    rw [chunkSizeTokens_eq, overlapSizeTokens_eq]
    have h1 : (140000 : Nat) * 4 = 560000 := by norm_num
    have h2 : (20000 : Nat) * 4 = 80000 := by norm_num
    rw [h1, h2]
    by_cases hend : content.length ≤ chunkStepEnd content 560000 pos.val
    · exact Or.inl hend
    · refine Or.inr ?_
      have hp : pos.val < content.length := pos.isLt
      have hgt : pos.val < chunkStepEnd content 560000 pos.val :=
        chunkStepEnd_gt hp (by omega)
      have hbig : 560000 / 2 < chunkStepEnd content 560000 pos.val - pos.val :=
        chunkStepEnd_big hp (by omega) (by omega)
      have hnp := chunkNextPos_spec 80000 pos.val
        (chunkStepEnd content 560000 pos.val) (by omega)
      rw [hnp]
      by_cases hc : pos.val ≤ 80000
      · rw [if_pos hc]
        omega
      · rw [if_neg hc]
        omega

/-- A `Chain'` relation holds between the entries at any two consecutive
indices. -/
theorem chain_rel_getElem {α : Type} {R : α → α → Prop} :
    ∀ (l : List α), List.Chain' R l →
      ∀ (k : Nat) (a b : α), l[k]? = some a → l[k + 1]? = some b → R a b := by
  intro l
  induction l with
  | nil =>
    intro _ k a b ha _
    rw [List.getElem?_nil] at ha
    exact Option.noConfusion ha
  | cons x rest ih =>
    intro hchain k a b ha hb
    cases rest with
    | nil =>
      rw [List.getElem?_cons_succ, List.getElem?_nil] at hb
      exact Option.noConfusion hb
    | cons y rest2 =>
      rw [List.chain'_cons] at hchain
      cases k with
      | zero =>
        rw [List.getElem?_cons_zero] at ha
        rw [List.getElem?_cons_succ, List.getElem?_cons_zero] at hb
        injection ha with ha
        injection hb with hb
        rw [← ha, ← hb]
        exact hchain.1
      | succ kp =>
        rw [List.getElem?_cons_succ] at ha hb
        exact ih hchain.2 kp a b ha hb

/-- C2 (amended): for content over the chunking threshold, the chunking step
produces the slices of its computed spans; every chunk stays within the
560000-character budget (35% of the 400000-token window at 4 characters per
token); every character of the content lies in at least one chunk; the first
chunk starts at position 0; and for the spans at any two consecutive indices
k and k+1: the first pair (k = 0) is adjacent — the second chunk starts
exactly where the first ends, because on the first iteration
`current_pos - overlap` never exceeds the first chunk's length and the
anti-infinite-loop guard resets the next position to `chunk_end` — while
every later pair (k ≥ 1) overlaps: the next chunk starts strictly before the
current one ends. -/
theorem C2_chunking_amended (content : List Char)
    (h : chunkingThreshold < estimate_tokens content) :
    createOverlappingChunks content chunkSizeTokens overlapSizeTokens =
      some ((chunkSpans content).map (spanSlice content)) ∧
    (∀ s ∈ chunkSpans content, s.2 - s.1 ≤ chunkSizeTokens * 4 ∧
      (spanSlice content s).length = s.2 - s.1) ∧
    (∀ i : Fin content.length, ∃ s ∈ chunkSpans content,
      s.1 ≤ i.val ∧ i.val < s.2 ∧ content.get i ∈ spanSlice content s) ∧
    (((chunkSpans content).head?).map Prod.fst = some 0) ∧
    (∀ (k : Nat) (a b : Nat × Nat),
      (chunkSpans content)[k]? = some a →
      (chunkSpans content)[k + 1]? = some b →
      (k = 0 → b.1 = a.2) ∧ (1 ≤ k → b.1 < a.2)) := by
  have h0 : 0 < content.length := by
    rw [chunkingThreshold_eq] at h
    unfold estimate_tokens at h
    omega
  obtain ⟨⟨e1, rest1, hhead⟩, hbounds, hlast, hchain⟩ := chunkSpans_spec content h0
  have hslice : ∀ s ∈ chunkSpans content, (spanSlice content s).length = s.2 - s.1 := by
    intro s hs
    obtain ⟨h1, h2, h3⟩ := hbounds s hs
    simp only [spanSlice, List.length_take, List.length_drop]
    omega
  refine ⟨?_, ?_, ?_, ?_, ?_⟩
  · unfold createOverlappingChunks
    rw [chunkSpans_total]
    rfl
  · intro s hs
    obtain ⟨h1, h2, h3⟩ := hbounds s hs
    rw [chunkSizeTokens_eq]
    exact ⟨by omega, hslice s hs⟩
  · intro i
    have hweak : List.Chain' (fun a b => b.1 ≤ a.2) (chunkSpans content) := by
      refine hchain.imp ?_
      intro a b hab
      by_cases hc : a.1 ≤ 80000
      · rw [hab.1 hc]
      · have := (hab.2.1 (by omega)).2
        omega
    obtain ⟨s, hs, hs1, hs2⟩ := spans_cover (chunkSpans content) i.val content.length
      hweak hlast
      (by
        intro p e rest heq
        rw [heq] at hhead
        injection hhead with h1 h2
        injection h1 with h1a h1b
        omega)
      i.isLt
    refine ⟨s, hs, hs1, hs2, ?_⟩
    obtain ⟨hb1, hb2, hb3⟩ := hbounds s hs
    have hjlt : i.val - s.1 < (spanSlice content s).length := by
      rw [hslice s hs]
      omega
    have hval : (spanSlice content s).get ⟨i.val - s.1, hjlt⟩ = content.get i := by
      simp only [spanSlice, List.get_eq_getElem] at hjlt ⊢
      rw [List.getElem_take, List.getElem_drop]
      congr 1
      omega
    rw [← hval]
    exact List.get_mem _ _ hjlt
  · rw [hhead]
    rfl
  · intro k a b ha hb
    have hrel := chain_rel_getElem (chunkSpans content) hchain k a b ha hb
    constructor
    · intro hk0
      subst hk0
      have ha0 : a = (0, e1) := by
        rw [hhead, List.getElem?_cons_zero] at ha
        injection ha with ha
        exact ha.symm
      have ha1 : a.1 = 0 := by rw [ha0]
      exact hrel.1 (by omega)
    · intro hk1
      have hklt : k < (chunkSpans content).length := by
        by_contra hge
        rw [List.getElem?_eq_none (by omega)] at ha
        exact Option.noConfusion ha
      have hk1lt : k - 1 < (chunkSpans content).length := by omega
      have hprev : (chunkSpans content)[k - 1]? =
          some ((chunkSpans content).get ⟨k - 1, hk1lt⟩) := by
        rw [List.getElem?_eq_getElem hk1lt, List.get_eq_getElem]
      have hsucc : (chunkSpans content)[(k - 1) + 1]? = some a := by
        have hke : k - 1 + 1 = k := by omega
        rw [hke]
        exact ha
      have hrel0 := chain_rel_getElem (chunkSpans content) hchain (k - 1) _ a hprev hsucc
      exact (hrel.2.1 hrel0.2.2).2

theorem estimate_tokens_def (text : List Char) :
    estimate_tokens text = text.length / 4 := rfl

theorem estimate_tokens_replicate_650000 :
    estimate_tokens (List.replicate 650000 'x') = 162500 := by
  rw [estimate_tokens_def, List.length_replicate]

/-- One unfolding of the chunking loop. -/
theorem chunkSpansAux_step (content : List Char) (cs os fuel pos : Nat)
    (hf : 0 < fuel) (hp : pos < content.length) :
    chunkSpansAux content cs os fuel pos =
      if content.length ≤ chunkStepEnd content cs pos
      then some [(pos, chunkStepEnd content cs pos)]
      else
        match chunkSpansAux content cs os (fuel - 1)
            (chunkNextPos os pos (chunkStepEnd content cs pos)) with
        | none => none
        | some spans => some ((pos, chunkStepEnd content cs pos) :: spans) := by
  obtain ⟨f, rfl⟩ : ∃ f, fuel = f + 1 := ⟨fuel - 1, by omega⟩
  simp only [chunkSpansAux, Nat.add_sub_cancel]
  rw [if_pos hp]

/-- On newline-free content the trim never fires: the chunk end is just the
clipped tentative end. -/
theorem chunkStepEnd_replicate (m csChars pos : Nat) :
    chunkStepEnd (List.replicate m 'x') csChars pos = min (pos + csChars) m := by
  unfold chunkStepEnd
  simp only [List.length_replicate]
  by_cases h : min (pos + csChars) m < m
  · rw [if_pos h]
    have hdrop : (List.replicate m 'x').drop pos = List.replicate (m - pos) 'x' :=
      List.drop_replicate 'x' pos m
    have htake : ((List.replicate m 'x').drop pos).take (min (pos + csChars) m - pos) =
        List.replicate (min (min (pos + csChars) m - pos) (m - pos)) 'x' := by
      rw [hdrop, List.take_replicate]
    rw [htake, pyRfind_eq_none]
    intro a ha
    rw [List.eq_of_mem_replicate ha]
    decide
  · rw [if_neg h]

theorem chunkSpans_replicate_650000 :
    chunkSpans (List.replicate 650000 'x') = [(0, 560000), (560000, 650000)] := by
  have hlen : (List.replicate 650000 'x').length = 650000 := by
    rw [List.length_replicate]
  have hstep0 : chunkStepEnd (List.replicate 650000 'x') 560000 0 = 560000 := by
    rw [chunkStepEnd_replicate]
    omega
  have hstep1 : chunkStepEnd (List.replicate 650000 'x') 560000 560000 = 650000 := by
    rw [chunkStepEnd_replicate]
    omega
  have hnext : chunkNextPos 80000 0 560000 = 560000 := by
    rw [chunkNextPos_spec 80000 0 560000 (by omega), if_pos (by omega)]
  unfold chunkSpans createOverlappingChunksSpans
  rw [chunkSizeTokens_eq, overlapSizeTokens_eq]
  have h14 : (140000 : Nat) * 4 = 560000 := by norm_num
  have h24 : (20000 : Nat) * 4 = 80000 := by norm_num
  rw [h14, h24, hlen]
  rw [chunkSpansAux_step _ _ _ _ _ (by norm_num) (by rw [hlen]; norm_num)]
  rw [hstep0, hlen, if_neg (by norm_num), hnext]
  rw [chunkSpansAux_step _ _ _ _ _ (by norm_num) (by rw [hlen]; norm_num)]
  rw [hstep1, hlen, if_pos (by norm_num)]
  rfl

theorem C2_chunking_amended_witness :
    (0 = 0 → ((560000, 650000) : Nat × Nat).1 = ((0, 560000) : Nat × Nat).2) ∧
    (1 ≤ 0 → ((560000, 650000) : Nat × Nat).1 < ((0, 560000) : Nat × Nat).2) :=
  (C2_chunking_amended (List.replicate 650000 'x')
    (by
      rw [chunkingThreshold_eq, estimate_tokens_replicate_650000]
      norm_num)).2.2.2.2 0 (0, 560000) (560000, 650000)
    (by rw [chunkSpans_replicate_650000]; rfl)
    (by rw [chunkSpans_replicate_650000]; rfl)

/-- C2: refuted as stated.  On a 650000-character newline-free file (162500
estimated tokens, over the 160000-token threshold) the chunker produces
exactly two chunks, spanning [0, 560000) and [560000, 650000): the second
chunk starts exactly where the first ends, not before it, so the claim that
every pair of consecutive chunks overlaps fails for the first pair.  (The
anti-infinite-loop guard `current_pos <= len(chunks[-1])` always fires on the
first iteration, because the first chunk's length is its end position.) -/
theorem C2_chunking_counterexample :
    chunkingThreshold < estimate_tokens (List.replicate 650000 'x') ∧
    chunkSpans (List.replicate 650000 'x') = [(0, 560000), (560000, 650000)] ∧
    ¬ (((0 : Nat), (560000 : Nat)).2 > ((560000 : Nat), (650000 : Nat)).1) :=
  ⟨by
      rw [chunkingThreshold_eq, estimate_tokens_replicate_650000]
      norm_num,
   chunkSpans_replicate_650000, by norm_num⟩

/-! ### `TraversalEngine` (src/src/services/traversal_engine.py)

A directory tree is a node with a name, the names of the plain files it
contains, and its subdirectories.  `sorted(current_path.iterdir())` visits
subdirectories in name order (their paths share the parent prefix);
`WellFormed` records that sibling names are distinct, as on a real file
system where `iterdir` cannot return the same name twice.  Yields are
root-relative name paths (the root's own name included). -/

inductive FsTree where
  | node (name : String) (files : List String) (subdirs : List FsTree)

def FsTree.name : FsTree → String
  | .node n _ _ => n

def FsTree.files : FsTree → List String
  | .node _ f _ => f

def FsTree.subdirs : FsTree → List FsTree
  | .node _ _ s => s

/-- `pathlib.PurePath.suffix`: the part of the final component from its last
dot, empty when the dot is missing, leading, or trailing. -/
def pyPathSuffix (name : String) : String :=
  match pyRfind name.data '.' with
  | none => ""
  | some i =>
    if 0 < i ∧ i < name.data.length - 1 then String.mk (name.data.drop i) else ""

def pyLower (s : String) : String := String.mk (s.data.map Char.toLower)

/-- `should_skip_directory` (traversal_engine.py lines 23-43). -/
def skipPatterns : List String :=
  [".git", ".hg", ".svn", "__pycache__", ".pytest_cache", "node_modules",
   ".venv", "venv", "env", "dist", "build", ".idea", ".vscode", ".DS_Store"]

def shouldSkipDirectory (name : String) : Bool :=
  skipPatterns.contains name || pyStartsWith ".".data name.data

/-- The extension set of `_has_source_files` (traversal_engine.py lines 73-109). -/
def traversalSourceExtensions : List String :=
  [".py", ".js", ".ts", ".jsx", ".tsx",
   ".java", ".kt", ".scala",
   ".c", ".cpp", ".cc", ".cxx", ".h", ".hpp",
   ".rs", ".go", ".rb", ".php", ".cs", ".swift",
   ".m", ".mm", ".r", ".R", ".sql",
   ".sh", ".bash", ".ps1",
   ".yaml", ".yml", ".json", ".toml", ".ini", ".cfg",
   ".md", ".rst"]

/-- `_has_source_files`: some plain file's lower-cased suffix is recognized. -/
def hasSourceFiles (files : List String) : Bool :=
  files.any fun f => traversalSourceExtensions.contains (pyLower (pyPathSuffix f))

theorem FsTree.sizeOf_node (n : String) (f : List String) (s : List FsTree) :
    sizeOf (FsTree.node n f s) = 1 + sizeOf n + sizeOf f + sizeOf s := by
  simp

/-- `_traverse` (traversal_engine.py lines 52-69): skip the directory (and its
whole subtree) when its name matches, yield it before its children when it
contains a source file, then recurse into the children in sorted order. -/
def traverseDirs (pre : List String) : FsTree → List (List String)
  | .node nm files subdirs =>
    if shouldSkipDirectory nm then []
    else
      (if hasSourceFiles files then [pre ++ [nm]] else []) ++
      (((subdirs.mergeSort fun a b => decide (a.name ≤ b.name)).attach.map
        fun c => traverseDirs (pre ++ [nm]) c.1).flatten)
termination_by t => sizeOf t
decreasing_by
  have h1 := List.sizeOf_lt_of_mem (List.mem_mergeSort.mp c.2)
  simp only [FsTree.node.sizeOf_spec]
  omega

theorem traverseDirs_node (pre : List String) (nm : String) (files : List String)
    (subdirs : List FsTree) :
    traverseDirs pre (.node nm files subdirs) =
      if shouldSkipDirectory nm then []
      else
        (if hasSourceFiles files then [pre ++ [nm]] else []) ++
        (((subdirs.mergeSort fun a b => decide (a.name ≤ b.name)).map
          (traverseDirs (pre ++ [nm]))).flatten) := by
  rw [traverseDirs]
  rw [List.attach_map_val (subdirs.mergeSort fun a b => decide (a.name ≤ b.name))
    (traverseDirs (pre ++ [nm]))]

/-- Following a name path through the tree, via the first matching subdirectory. -/
def getSubtree : List String → FsTree → Option FsTree
  | [], t => some t
  | nm :: rest, t =>
    match t.subdirs.find? (fun c => c.name == nm) with
    | some c => getSubtree rest c
    | none => none

/-- No directory along the path (the starting directory included) matches a
skip pattern. -/
def notSkippedAlong : List String → FsTree → Prop
  | [], t => shouldSkipDirectory t.name = false
  | nm :: rest, t =>
    shouldSkipDirectory t.name = false ∧
    match t.subdirs.find? (fun c => c.name == nm) with
    | some c => notSkippedAlong rest c
    | none => False

/-- Sibling directory names are distinct, as `iterdir` guarantees. -/
inductive WellFormed : FsTree → Prop where
  | node : ∀ (nm : String) (files : List String) (subdirs : List FsTree),
      (subdirs.map FsTree.name).Nodup →
      (∀ c ∈ subdirs, WellFormed c) →
      WellFormed (.node nm files subdirs)

theorem FsTree.inductionOn {P : FsTree → Prop}
    (h : ∀ nm files subdirs, (∀ c ∈ subdirs, P c) → P (FsTree.node nm files subdirs)) :
    ∀ t, P t := by
  have haux : ∀ (n : Nat) (t : FsTree), sizeOf t ≤ n → P t := by
    intro n
    induction n with
    | zero =>
      intro t ht
      cases t with
      | node nm files subdirs =>
        rw [FsTree.sizeOf_node] at ht
        omega
    | succ n ih =>
      intro t ht
      cases t with
      | node nm files subdirs =>
        apply h
        intro c hc
        apply ih
        have h1 := List.sizeOf_lt_of_mem hc
        have h2 := FsTree.sizeOf_node nm files subdirs
        omega
  exact fun t => haux (sizeOf t) t (le_refl _)

theorem wellFormed_node_iff {nm : String} {files : List String} {subdirs : List FsTree} :
    WellFormed (.node nm files subdirs) ↔
      (subdirs.map FsTree.name).Nodup ∧ ∀ c ∈ subdirs, WellFormed c := by
  constructor
  · intro h
    cases h with
    | node _ _ _ h1 h2 => exact ⟨h1, h2⟩
  · intro ⟨h1, h2⟩
    exact WellFormed.node nm files subdirs h1 h2

/-- With distinct sibling names, `find?` by name retrieves a member exactly. -/
theorem find?_name_eq_of_mem {subdirs : List FsTree} {c : FsTree}
    (hnodup : (subdirs.map FsTree.name).Nodup) (hc : c ∈ subdirs) :
    subdirs.find? (fun d => d.name == c.name) = some c := by
  induction subdirs with
  | nil => simp at hc
  | cons d rest ih =>
    rw [List.map_cons, List.nodup_cons] at hnodup
    rcases List.mem_cons.mp hc with hc1 | hc1
    · subst hc1
      simp [List.find?]
    · have hne : d.name ≠ c.name := by
        intro h
        exact hnodup.1 (h ▸ List.mem_map_of_mem FsTree.name hc1)
      rw [List.find?]
      have : (d.name == c.name) = false := beq_eq_false_iff_ne.mpr hne
      rw [this]
      exact ih hnodup.2 hc1

/-- Every yield of the traversal of `t` below prefix `pre` extends
`pre ++ [t.name]`. -/
theorem traverseDirs_shape :
    ∀ (t : FsTree) (pre x : List String), x ∈ traverseDirs pre t →
      ∃ s, x = pre ++ t.name :: s := by
  refine FsTree.inductionOn ?_
  intro nm files subdirs ih pre x hx
  rw [traverseDirs_node] at hx
  by_cases hskip : shouldSkipDirectory nm
  · rw [if_pos hskip] at hx
    simp at hx
  · rw [if_neg hskip] at hx
    rcases List.mem_append.mp hx with hx | hx
    · by_cases hsf : hasSourceFiles files
      · rw [if_pos hsf, List.mem_singleton] at hx
        exact ⟨[], by simpa using hx⟩
      · rw [if_neg hsf] at hx
        simp at hx
    · obtain ⟨l, hl, hxl⟩ := List.mem_flatten.mp hx
      obtain ⟨c, hcmem, hcl⟩ := List.mem_map.mp hl
      have hcsub : c ∈ subdirs := List.mem_mergeSort.mp hcmem
      obtain ⟨s, hs⟩ := ih c hcsub (pre ++ [nm]) x (hcl ▸ hxl)
      exact ⟨c.name :: s, by simpa using hs⟩

@[simp] theorem FsTree.name_node (nm : String) (f : List String) (s : List FsTree) :
    (FsTree.node nm f s).name = nm := rfl

@[simp] theorem FsTree.files_node (nm : String) (f : List String) (s : List FsTree) :
    (FsTree.node nm f s).files = f := rfl

@[simp] theorem FsTree.subdirs_node (nm : String) (f : List String) (s : List FsTree) :
    (FsTree.node nm f s).subdirs = s := rfl

theorem getSubtree_cons (nm : String) (p : List String) (t : FsTree) :
    getSubtree (nm :: p) t =
      match t.subdirs.find? (fun c => c.name == nm) with
      | some c => getSubtree p c
      | none => none := rfl

theorem notSkippedAlong_cons (nm : String) (p : List String) (t : FsTree) :
    notSkippedAlong (nm :: p) t ↔
      (shouldSkipDirectory t.name = false ∧
        match t.subdirs.find? (fun c => c.name == nm) with
        | some c => notSkippedAlong p c
        | none => False) := Iff.rfl

theorem notSkippedAlong_skip_false {p : List String} {t : FsTree}
    (h : notSkippedAlong p t) : shouldSkipDirectory t.name = false := by
  cases p with
  | nil => exact h
  | cons a b => exact h.1

/-- The traversal yields exactly the non-skipped, source-file-containing
descendants, as prefixed name paths. -/
theorem mem_traverseDirs :
    ∀ (t : FsTree), WellFormed t → ∀ (pre x : List String),
      (x ∈ traverseDirs pre t ↔
        ∃ p D, getSubtree p t = some D ∧ notSkippedAlong p t ∧
          hasSourceFiles D.files = true ∧ x = pre ++ t.name :: p) := by
  refine FsTree.inductionOn ?_
  intro nm files subdirs ih hwf pre x
  obtain ⟨hnodup, hwfsub⟩ := wellFormed_node_iff.mp hwf
  rw [traverseDirs_node]
  by_cases hskip : shouldSkipDirectory nm
  · rw [if_pos hskip]
    simp only [List.not_mem_nil, false_iff]
    rintro ⟨p, D, hD, hns, hsf, hx⟩
    have hf : shouldSkipDirectory (FsTree.node nm files subdirs).name = false :=
      notSkippedAlong_skip_false hns
    rw [FsTree.name_node] at hf
    rw [hf] at hskip
    exact Bool.noConfusion hskip
  · rw [if_neg hskip]
    have hskipf : shouldSkipDirectory nm = false := by
      simpa using hskip
    constructor
    · intro hx
      rcases List.mem_append.mp hx with hx | hx
      · have hsf : hasSourceFiles files = true := by
          by_cases h : hasSourceFiles files
          · exact h
          · rw [if_neg h] at hx
            simp at hx
        rw [if_pos hsf, List.mem_singleton] at hx
        refine ⟨[], FsTree.node nm files subdirs, rfl, ?_, by simpa using hsf, by simpa using hx⟩
        show shouldSkipDirectory (FsTree.node nm files subdirs).name = false
        simpa using hskipf
      · obtain ⟨l, hl, hxl⟩ := List.mem_flatten.mp hx
        obtain ⟨c, hcmem, rfl⟩ := List.mem_map.mp hl
        have hcsub : c ∈ subdirs := List.mem_mergeSort.mp hcmem
        obtain ⟨p, D, hD, hns, hsf, hx'⟩ :=
          (ih c hcsub (hwfsub c hcsub) (pre ++ [nm]) x).mp hxl
        refine ⟨c.name :: p, D, ?_, ?_, hsf, by simpa using hx'⟩
        · rw [getSubtree_cons, FsTree.subdirs_node, find?_name_eq_of_mem hnodup hcsub]
          exact hD
        · rw [notSkippedAlong_cons, FsTree.subdirs_node,
            find?_name_eq_of_mem hnodup hcsub]
          exact ⟨by simpa using hskipf, hns⟩
    · rintro ⟨p, D, hD, hns, hsf, rfl⟩
      cases p with
      | nil =>
        have hDt : D = FsTree.node nm files subdirs := by
          have : some (FsTree.node nm files subdirs) = some D := hD
          injection this with h
          exact h.symm
        subst hDt
        rw [FsTree.files_node] at hsf
        rw [if_pos hsf]
        apply List.mem_append.mpr
        exact Or.inl (by simp)
      | cons nm' p' =>
        rw [getSubtree_cons, FsTree.subdirs_node] at hD
        rw [notSkippedAlong_cons, FsTree.subdirs_node] at hns
        cases hfind : subdirs.find? (fun c => c.name == nm') with
        | none =>
          rw [hfind] at hD
          exact absurd hD (by simp)
        | some c =>
          rw [hfind] at hD hns
          have hcsub : c ∈ subdirs := List.mem_of_find?_eq_some hfind
          have hbeq : (c.name == nm') = true :=
            @List.find?_some FsTree (fun c => c.name == nm') c subdirs hfind
          have hcname : c.name = nm' := eq_of_beq hbeq
          apply List.mem_append.mpr
          refine Or.inr ?_
          apply List.mem_flatten.mpr
          refine ⟨traverseDirs (pre ++ [nm]) c, ?_, ?_⟩
          · exact List.mem_map.mpr ⟨c, List.mem_mergeSort.mpr hcsub, rfl⟩
          · apply (ih c hcsub (hwfsub c hcsub) (pre ++ [nm]) _).mpr
            refine ⟨p', D, hD, hns.2, hsf, ?_⟩
            rw [hcname]
            simp

theorem sum_child_counts_le_one (pre : List String) (x : List String) :
    ∀ (l : List FsTree), (l.map FsTree.name).Nodup →
      (∀ c ∈ l, (traverseDirs pre c).count x ≤ 1) →
      (l.map fun c => (traverseDirs pre c).count x).sum ≤ 1 := by
  intro l
  induction l with
  | nil => simp
  | cons c rest ih =>
    intro hnodup hle
    rw [List.map_cons, List.sum_cons]
    rw [List.map_cons, List.nodup_cons] at hnodup
    by_cases hc : 0 < (traverseDirs pre c).count x
    · have hxc : x ∈ traverseDirs pre c := List.count_pos_iff.mp hc
      obtain ⟨s, hs⟩ := traverseDirs_shape c pre x hxc
      have hrest : ∀ d ∈ rest, (traverseDirs pre d).count x = 0 := by
        intro d hd
        by_contra hne
        have hxd : x ∈ traverseDirs pre d := List.count_pos_iff.mp (by omega)
        obtain ⟨s', hs'⟩ := traverseDirs_shape d pre x hxd
        rw [hs] at hs'
        have htail := List.append_cancel_left hs'
        injection htail with hname _
        exact hnodup.1 (hname ▸ List.mem_map_of_mem FsTree.name hd)
      have hsum0 : (rest.map fun d => (traverseDirs pre d).count x).sum = 0 := by
        apply List.sum_eq_zero
        intro y hy
        obtain ⟨d, hd, rfl⟩ := List.mem_map.mp hy
        exact hrest d hd
      rw [hsum0]
      have := hle c (by simp)
      omega
    · have h0 : (traverseDirs pre c).count x = 0 := by omega
      rw [h0, Nat.zero_add]
      exact ih hnodup.2 fun d hd => hle d (by simp [hd])

theorem count_traverseDirs_le_one :
    ∀ (t : FsTree), WellFormed t → ∀ (pre x : List String),
      (traverseDirs pre t).count x ≤ 1 := by
  refine FsTree.inductionOn ?_
  intro nm files subdirs ih hwf pre x
  obtain ⟨hnodup, hwfsub⟩ := wellFormed_node_iff.mp hwf
  rw [traverseDirs_node]
  by_cases hskip : shouldSkipDirectory nm
  · rw [if_pos hskip]
    simp
  · rw [if_neg hskip]
    rw [List.count_append, List.count_flatten, List.map_map]
    have hsortnodup :
        ((subdirs.mergeSort fun a b => decide (a.name ≤ b.name)).map FsTree.name).Nodup := by
      have hperm : (subdirs.mergeSort fun a b => decide (a.name ≤ b.name)).Perm subdirs :=
        List.mergeSort_perm subdirs _
      exact ((hperm.map FsTree.name).symm).nodup hnodup
    have hchild :
        ((subdirs.mergeSort fun a b => decide (a.name ≤ b.name)).map
          fun c => (traverseDirs (pre ++ [nm]) c).count x).sum ≤ 1 := by
      apply sum_child_counts_le_one
      · exact hsortnodup
      · intro c hc
        have hcsub : c ∈ subdirs := List.mem_mergeSort.mp hc
        exact ih c hcsub (hwfsub c hcsub) (pre ++ [nm]) x
    by_cases hself : x = pre ++ [nm]
    · subst hself
      have hflat0 :
          ((subdirs.mergeSort fun a b => decide (a.name ≤ b.name)).map
            ((fun l => l.count (pre ++ [nm])) ∘ traverseDirs (pre ++ [nm]))).sum = 0 := by
        apply List.sum_eq_zero
        intro y hy
        obtain ⟨c, _, rfl⟩ := List.mem_map.mp hy
        simp only [Function.comp_apply]
        by_contra hne
        have hxc : (pre ++ [nm]) ∈ traverseDirs (pre ++ [nm]) c :=
          List.count_pos_iff.mp (by omega)
        obtain ⟨s, hs⟩ := traverseDirs_shape c (pre ++ [nm]) _ hxc
        have hlen := congrArg List.length hs
        simp at hlen
      rw [hflat0]
      have : (if hasSourceFiles files then [pre ++ [nm]] else []).count (pre ++ [nm]) ≤ 1 := by
        by_cases h : hasSourceFiles files
        · rw [if_pos h]
          simp
        · rw [if_neg h]
          simp
      omega
    · have hopt0 : (if hasSourceFiles files then [pre ++ [nm]] else []).count x = 0 := by
        by_cases h : hasSourceFiles files
        · rw [if_pos h]
          simp [List.count_singleton]
          exact fun h => absurd h.symm hself
        · rw [if_neg h]
          simp
      rw [hopt0]
      have heq :
          ((subdirs.mergeSort fun a b => decide (a.name ≤ b.name)).map
            ((fun l => l.count x) ∘ traverseDirs (pre ++ [nm]))).sum =
          ((subdirs.mergeSort fun a b => decide (a.name ≤ b.name)).map
            fun c => (traverseDirs (pre ++ [nm]) c).count x).sum := rfl
      rw [Nat.zero_add, heq]
      exact hchild

theorem getElem?_append_offset {α : Type} (A B : List α) (k : Nat) :
    (A ++ B)[A.length + k]? = B[k]? := by
  rw [List.getElem?_append_right (by omega)]
  congr 1
  omega

/-- A qualifying directory is yielded before any of its qualifying
descendants. -/
theorem traverseDirs_order :
    ∀ (t : FsTree), WellFormed t → ∀ (pre p q : List String) (D E : FsTree),
      getSubtree p t = some D → notSkippedAlong p t →
      hasSourceFiles D.files = true →
      q ≠ [] → getSubtree (p ++ q) t = some E → notSkippedAlong (p ++ q) t →
      hasSourceFiles E.files = true →
      ∃ (i j : Nat), i < j ∧ (traverseDirs pre t)[i]? = some (pre ++ t.name :: p) ∧
        (traverseDirs pre t)[j]? = some (pre ++ t.name :: (p ++ q)) := by
  refine FsTree.inductionOn ?_
  intro nm files subdirs ih hwf pre p q D E hD hns hsf hq hE hnsE hsfE
  obtain ⟨hnodup, hwfsub⟩ := wellFormed_node_iff.mp hwf
  have hskipf : shouldSkipDirectory nm = false := by
    have := notSkippedAlong_skip_false hns
    simpa using this
  cases p with
  | nil =>
    have hDt : D = FsTree.node nm files subdirs := by
      have h' : some (FsTree.node nm files subdirs) = some D := hD
      injection h' with h'
      exact h'.symm
    subst hDt
    rw [FsTree.files_node] at hsf
    have hxq : (pre ++ (FsTree.node nm files subdirs).name :: ([] ++ q)) ∈
        traverseDirs pre (FsTree.node nm files subdirs) := by
      apply (mem_traverseDirs _ hwf pre _).mpr
      exact ⟨[] ++ q, E, hE, hnsE, hsfE, rfl⟩
    rw [traverseDirs_node, if_neg (by rw [hskipf]; exact Bool.false_ne_true),
      if_pos hsf, List.singleton_append] at hxq ⊢
    obtain ⟨jj, hjj⟩ := List.mem_iff_getElem?.mp hxq
    have hjjne : jj ≠ 0 := by
      intro h0
      subst h0
      rw [List.getElem?_cons_zero] at hjj
      injection hjj with hjj
      have h1 := List.append_cancel_left hjj
      injection h1 with _ h2
      have hq0 : q = [] := by simpa using h2.symm
      exact hq hq0
    exact ⟨0, jj, by omega, by simp, by simpa using hjj⟩
  | cons nm' p' =>
    rw [getSubtree_cons, FsTree.subdirs_node] at hD
    rw [notSkippedAlong_cons, FsTree.subdirs_node] at hns
    rw [List.cons_append] at hE hnsE
    rw [getSubtree_cons, FsTree.subdirs_node] at hE
    rw [notSkippedAlong_cons, FsTree.subdirs_node] at hnsE
    cases hfind : subdirs.find? (fun c => c.name == nm') with
    | none =>
      rw [hfind] at hD
      exact absurd hD (by simp)
    | some c =>
      rw [hfind] at hD hns hE hnsE
      have hcsub : c ∈ subdirs := List.mem_of_find?_eq_some hfind
      have hbeq : (c.name == nm') = true :=
        @List.find?_some FsTree (fun c => c.name == nm') c subdirs hfind
      have hcname : c.name = nm' := eq_of_beq hbeq
      obtain ⟨i', j', hij, hI, hJ⟩ :=
        ih c hcsub (hwfsub c hcsub) (pre ++ [nm]) p' q D E hD hns.2 hsf hq hE hnsE.2 hsfE
      have hcsort : c ∈ subdirs.mergeSort fun a b => decide (a.name ≤ b.name) :=
        List.mem_mergeSort.mpr hcsub
      obtain ⟨L1, L2, hsplit⟩ := List.append_of_mem hcsort
      rw [traverseDirs_node, if_neg (by rw [hskipf]; exact Bool.false_ne_true), hsplit,
        List.map_append, List.map_cons, List.flatten_append, List.flatten_cons]
      set optional := if hasSourceFiles files then [pre ++ [nm]] else [] with hopt
      set F1 := (L1.map (traverseDirs (pre ++ [nm]))).flatten with hF1
      set fc := traverseDirs (pre ++ [nm]) c with hfc
      set F2 := (L2.map (traverseDirs (pre ++ [nm]))).flatten with hF2
      have hassoc : optional ++ (F1 ++ (fc ++ F2)) = (optional ++ F1) ++ (fc ++ F2) := by
        rw [List.append_assoc]
      rw [hassoc]
      have hi'lt : i' < fc.length := by
        by_contra hge
        rw [List.getElem?_eq_none (by omega)] at hI
        exact Option.noConfusion hI
      have hj'lt : j' < fc.length := by
        by_contra hge
        rw [List.getElem?_eq_none (by omega)] at hJ
        exact Option.noConfusion hJ
      refine ⟨(optional ++ F1).length + i', (optional ++ F1).length + j', by omega, ?_, ?_⟩
      · rw [getElem?_append_offset, List.getElem?_append, if_pos hi'lt, hI]
        congr 1
        rw [hcname]
        simp
      · rw [getElem?_append_offset, List.getElem?_append, if_pos hj'lt, hJ]
        congr 1
        rw [hcname]
        simp

/-- C6: in a well-formed tree (distinct sibling names, as on a real file
system), every non-skipped descendant directory containing at least one
recognized source file is yielded exactly once; it is yielded before any
qualifying descendant of its own; and a directory with no recognized source
file is never yielded — while its subdirectories are still traversed, which
is the first part applied to them: it holds with no condition on the
ancestors' own source files. -/
theorem C6_traversal_preorder_unique (t : FsTree) (hwf : WellFormed t) :
    (∀ (p : List String) (D : FsTree), getSubtree p t = some D →
      notSkippedAlong p t → hasSourceFiles D.files = true →
      (traverseDirs [] t).count (t.name :: p) = 1) ∧
    (∀ (p q : List String) (D E : FsTree), getSubtree p t = some D →
      notSkippedAlong p t → hasSourceFiles D.files = true → q ≠ [] →
      getSubtree (p ++ q) t = some E → notSkippedAlong (p ++ q) t →
      hasSourceFiles E.files = true →
      ∃ (i j : Nat), i < j ∧ (traverseDirs [] t)[i]? = some (t.name :: p) ∧
        (traverseDirs [] t)[j]? = some (t.name :: (p ++ q))) ∧
    (∀ (p : List String) (D : FsTree), getSubtree p t = some D →
      hasSourceFiles D.files = false → (t.name :: p) ∉ traverseDirs [] t) := by
  refine ⟨?_, ?_, ?_⟩
  · intro p D hD hns hsf
    have hmem : (t.name :: p) ∈ traverseDirs [] t := by
      apply (mem_traverseDirs t hwf [] _).mpr
      exact ⟨p, D, hD, hns, hsf, by simp⟩
    have h1 : 0 < (traverseDirs [] t).count (t.name :: p) :=
      List.count_pos_iff.mpr hmem
    have h2 := count_traverseDirs_le_one t hwf [] (t.name :: p)
    omega
  · intro p q D E hD hns hsf hq hE hnsE hsfE
    have := traverseDirs_order t hwf [] p q D E hD hns hsf hq hE hnsE hsfE
    simpa using this
  · intro p D hD hsf hmem
    obtain ⟨p', D', hD', _, hsf', hx⟩ := (mem_traverseDirs t hwf [] _).mp hmem
    rw [List.nil_append] at hx
    injection hx with _ hp
    rw [← hp] at hD'
    rw [hD'] at hD
    injection hD with hDD
    rw [hDD] at hsf'
    rw [hsf'] at hsf
    exact Bool.noConfusion hsf

/-- After following `p` to a directory, a longer non-skipped path through it
means that directory itself is not skipped. -/
theorem notSkippedAlong_append_prefix :
    ∀ (p : List String) (t : FsTree) (s : List String) (D : FsTree),
      getSubtree p t = some D → notSkippedAlong (p ++ s) t →
      shouldSkipDirectory D.name = false := by
  intro p
  induction p with
  | nil =>
    intro t s D hD hns
    have hDt : D = t := by
      injection hD with h
      exact h.symm
    subst hDt
    exact notSkippedAlong_skip_false (by simpa using hns)
  | cons nm p' ih =>
    intro t s D hD hns
    rw [getSubtree_cons] at hD
    rw [List.cons_append, notSkippedAlong_cons] at hns
    cases hfind : t.subdirs.find? (fun c => c.name == nm) with
    | none =>
      rw [hfind] at hD
      exact absurd hD (by simp)
    | some c =>
      rw [hfind] at hD hns
      exact ih c s D hD hns.2

/-- C7: a directory whose name matches a skip pattern or starts with a dot is
never yielded, and neither is any of its descendants: no yielded path extends
the skipped directory's path. -/
theorem C7_skipped_subtree_never_yielded (t : FsTree) (hwf : WellFormed t)
    (p : List String) (D : FsTree) (hD : getSubtree p t = some D)
    (hskip : shouldSkipDirectory D.name = true) :
    ∀ x ∈ traverseDirs [] t, ¬ ∃ s, x = (t.name :: p) ++ s := by
  intro x hx hcontra
  obtain ⟨s, hs⟩ := hcontra
  obtain ⟨p'', D'', hD'', hns'', _, hx''⟩ := (mem_traverseDirs t hwf [] x).mp hx
  rw [List.nil_append] at hx''
  rw [hx''] at hs
  rw [List.cons_append] at hs
  injection hs with _ hps
  rw [hps] at hns''
  have hfalse := notSkippedAlong_append_prefix p t s D hD hns''
  rw [hfalse] at hskip
  exact Bool.noConfusion hskip

/-- A three-directory tree exercising the traversal claims: the root holds a
Python file, one child matches the `.git` skip pattern, the other holds a
JavaScript file. -/
def sampleTree : FsTree :=
  .node "root" ["main.py"]
    [.node ".git" ["cfg.py"] [], .node "sub" ["a.js"] []]

theorem sampleTree_wellFormed : WellFormed sampleTree := by
  refine WellFormed.node _ _ _ (by decide) ?_
  intro c hc
  rcases List.mem_cons.mp hc with h | h
  · subst h
    exact WellFormed.node _ _ _ (by decide) fun c hc => absurd hc (List.not_mem_nil c)
  · rcases List.mem_cons.mp h with h | h
    · subst h
      exact WellFormed.node _ _ _ (by decide) fun c hc => absurd hc (List.not_mem_nil c)
    · exact absurd h (List.not_mem_nil c)

theorem C6_traversal_preorder_unique_witness :
    (traverseDirs [] sampleTree).count ["root"] = 1 :=
  (C6_traversal_preorder_unique sampleTree sampleTree_wellFormed).1 []
    sampleTree rfl rfl (by decide)

theorem C7_skipped_subtree_never_yielded_witness :
    ¬ ∃ s, (["root", "sub"] : List String) = (["root", ".git"] : List String) ++ s :=
  C7_skipped_subtree_never_yielded sampleTree sampleTree_wellFormed [".git"]
    (.node ".git" ["cfg.py"] []) rfl rfl ["root", "sub"]
    ((mem_traverseDirs sampleTree sampleTree_wellFormed [] _).mpr
      ⟨["sub"], .node "sub" ["a.js"] [], rfl, ⟨rfl, rfl⟩, by decide, rfl⟩)

end Semantic
